import Mathlib

/-! Task manager (`src/App.js`): list operations, view derivation, persistence.

A shallow embedding of the non-UI logic of `MyTaskApp`:

* the task record and the component state (`useState` cells and the `"tasks"` key of
  `localStorage`),
* `deriveDisplayedTasks` (filter, highlight reorder, deadline sort),
* the handlers `addNewTask`, `openEditDialog`, `confirmEdits`, `removeTask`,
* `persistTasks` / `retrieveTasksFromStorage` together with the `JSON.stringify` /
  `JSON.parse` behaviour they rely on.

JavaScript strings are embedded as Lean `String`s (sequences of Unicode scalar values);
strings holding unpaired surrogate code units are outside the embedding.
-/

namespace TaskApp

/-! ## Data model -/

/-- A task object as built by `addNewTask` and `confirmEdits`: four string properties. -/
structure TaskRecord where
  title : String
  summary : String
  state : String
  deadline : String
deriving DecidableEq, Repr

/-- JavaScript truthiness of a value that is either `null` or a string
(`if (stateFilter)`, `if (highlightState)`): `null` and `""` are falsy. -/
def truthy : Option String → Bool
  | none => false
  | some s => s ≠ ""

/-! ## `Array.prototype.sort`

ECMAScript requires `sort` to be stable, and for a consistent comparator the result is the
unique stable arrangement.  It is embedded as a stable insertion sort driven by the sign of
the comparator: an element moves past exactly those elements it compares strictly greater
than.  (For an inconsistent comparator the real order is implementation-defined.) -/

/-- Insert `a` in front of the first element it does not compare strictly greater than. -/
def insertBy {α : Type} (cmp : α → α → Int) (a : α) : List α → List α
  | [] => [a]
  | b :: l => if cmp a b ≤ 0 then a :: b :: l else b :: insertBy cmp a l

/-- Stable sort by a comparator `cmp` (negative: first argument first). -/
def arraySort {α : Type} (cmp : α → α → Int) : List α → List α
  | [] => []
  | a :: l => insertBy cmp a (arraySort cmp l)

/-! ## Dates: `new Date("YYYY-MM-DD")` -/

/-- Decimal value of an ASCII digit. -/
def digitVal (c : Char) : Nat := c.toNat - 48

/-- The year, month and day fields of a string of the shape `DDDD-DD-DD`. -/
def dateFields (s : String) : Option (Nat × Nat × Nat) :=
  match s.data with
  | [y1, y2, y3, y4, s1, m1, m2, s2, d1, d2] =>
    if s1 = '-' ∧ s2 = '-' ∧ y1.isDigit ∧ y2.isDigit ∧ y3.isDigit ∧ y4.isDigit
        ∧ m1.isDigit ∧ m2.isDigit ∧ d1.isDigit ∧ d2.isDigit then
      some (1000 * digitVal y1 + 100 * digitVal y2 + 10 * digitVal y3 + digitVal y4,
            10 * digitVal m1 + digitVal m2, 10 * digitVal d1 + digitVal d2)
    else none
  | _ => none

/-- Leap years of the proleptic Gregorian calendar (ECMAScript `DaysInYear`). -/
def isLeap (y : Nat) : Bool := (y % 4 = 0 ∧ y % 100 ≠ 0) ∨ y % 400 = 0

/-- Number of days of month `m` (1 to 12) in year `y`; `0` for any other `m`. -/
def daysInMonth (y m : Nat) : Nat :=
  if m = 2 then (if isLeap y then 29 else 28)
  else if m = 4 ∨ m = 6 ∨ m = 9 ∨ m = 11 then 30
  else if 1 ≤ m ∧ m ≤ 12 then 31
  else 0

/-- Number of days of year `y` that precede month `m`. -/
def daysBeforeMonth (y m : Nat) : Nat :=
  (List.range (m - 1)).foldl (fun acc k => acc + daysInMonth y (k + 1)) 0

/-- ECMAScript `DayFromYear`: the day number of 1 January of year `y` (day 0 is
1 January 1970). -/
def dayFromYear (y : Int) : Int :=
  365 * (y - 1970) + (y - 1969) / 4 - (y - 1901) / 100 + (y - 1601) / 400

/-- Milliseconds per day. -/
def msPerDay : Int := 86400000

/-- Time value (milliseconds since the epoch, UTC) of a calendar date. -/
def timeValue (y m d : Nat) : Int :=
  (dayFromYear y + daysBeforeMonth y m + (d - 1 : Int)) * msPerDay

/-- A string is a calendar date in the form `YYYY-MM-DD`. -/
def validDate (s : String) : Bool :=
  match dateFields s with
  | some (y, m, d) => 1 ≤ m ∧ m ≤ 12 ∧ 1 ≤ d ∧ d ≤ daysInMonth y m
  | none => false

/-- The time value of `new Date(s)`; `none` stands for an Invalid Date (`NaN`).
Only the date-only form `YYYY-MM-DD`, the form an `<input type="date">` produces, is
recognised; every other string is treated as an Invalid Date. -/
def dateParse (s : String) : Option Int :=
  match dateFields s with
  | some (y, m, d) => if validDate s then some (timeValue y m d) else none
  | none => none

/-! ## View derivation -/

/-- Comparator of the highlight step (`App.js` lines 148-152). -/
def highlightCompare (highlightState : String) (a b : TaskRecord) : Int :=
  if a.state = highlightState ∧ b.state ≠ highlightState then -1
  else if b.state = highlightState ∧ a.state ≠ highlightState then 1
  else 0

/-- The value bound to `dateA` / `dateB` in the deadline comparator: `none` is `null`,
`some none` an Invalid Date, `some (some t)` a date with time value `t`. -/
def deadlineDate (t : TaskRecord) : Option (Option Int) :=
  if t.deadline ≠ "" then some (dateParse t.deadline) else none

/-- Comparator of the deadline step (`App.js` lines 157-164).  A `NaN` difference
(an Invalid Date on either side) counts as `0`, as `sort` treats it. -/
def deadlineCompare (a b : TaskRecord) : Int :=
  match deadlineDate a, deadlineDate b with
  | none, none => 0
  | none, some _ => 1
  | some _, none => -1
  | some (some ta), some (some tb) => ta - tb
  | some _, some _ => 0

/-- Step 1: `result.filter((item) => item.state === stateFilter)` when the filter is set. -/
def filterStep (stateFilter : Option String) (result : List TaskRecord) : List TaskRecord :=
  match stateFilter with
  | some s => if truthy (some s) then result.filter (fun item => item.state = s) else result
  | none => result

/-- Step 2: the highlight sort when `highlightState` is set. -/
def highlightStep (highlightState : Option String) (result : List TaskRecord) :
    List TaskRecord :=
  match highlightState with
  | some h => if truthy (some h) then arraySort (highlightCompare h) result else result
  | none => result

/-- Step 3: the deadline sort when `sortByDueDate` is on. -/
def deadlineStep (sortByDueDate : Bool) (result : List TaskRecord) : List TaskRecord :=
  if sortByDueDate then arraySort deadlineCompare result else result

/-- The displayed sequence (`App.js` lines 138-168). -/
def deriveDisplayedTasks (taskList : List TaskRecord) (stateFilter highlightState : Option String)
    (sortByDueDate : Bool) : List TaskRecord :=
  deadlineStep sortByDueDate (highlightStep highlightState (filterStep stateFilter taskList))

/-! ## Calendar order (specification side) -/

/-- Calendar order on (year, month, day) triples. -/
def civilLE (a b : Nat × Nat × Nat) : Bool :=
  a.1 < b.1 ∨ (a.1 = b.1 ∧ (a.2.1 < b.2.1 ∨ (a.2.1 = b.2.1 ∧ a.2.2 ≤ b.2.2)))

/-- A deadline is either absent (`""`) or a calendar date `YYYY-MM-DD`. -/
def wellFormedDeadline (s : String) : Bool := s = "" ∨ validDate s

/-- Ascending deadline order with undated tasks last: `a` may stand before `b`. -/
def deadlineLE (a b : TaskRecord) : Bool :=
  if b.deadline = "" then true
  else if a.deadline = "" then false
  else
    match dateFields a.deadline, dateFields b.deadline with
    | some x, some y => civilLE x y
    | _, _ => false

/-! ## JSON text: `JSON.stringify` and `JSON.parse`

The stored text is a list of characters.  Parsed string values are kept as UTF-16 code
units, as JavaScript holds them, so that `\uXXXX` escapes of surrogates are represented. -/

/-- The character `"`. -/
def chQuote : Char := Char.ofNat 34
/-- The character `\`. -/
def chBackslash : Char := Char.ofNat 92
/-- The character opening an object. -/
def chLBrace : Char := Char.ofNat 123
/-- The character closing an object. -/
def chRBrace : Char := Char.ofNat 125

/-- UTF-16 code units of one code point. -/
def utf16 (c : Char) : List Nat :=
  if c.toNat < 0x10000 then [c.toNat]
  else [0xD800 + (c.toNat - 0x10000) / 0x400, 0xDC00 + (c.toNat - 0x10000) % 0x400]

/-- UTF-16 code units of a string. -/
def units (s : String) : List Nat := s.data.flatMap utf16

/-- The code points of a well-formed sequence of UTF-16 code units; `none` when a
surrogate is unpaired. -/
def decodeUtf16 : List Nat → Option (List Char)
  | [] => some []
  | [u] => if 0xD800 ≤ u ∧ u < 0xE000 then none else some [Char.ofNat u]
  | u :: v :: rest =>
    if 0xD800 ≤ u ∧ u < 0xDC00 then
      if 0xDC00 ≤ v ∧ v < 0xE000 then
        (decodeUtf16 rest).map
          (fun cs => Char.ofNat (0x10000 + (u - 0xD800) * 0x400 + (v - 0xDC00)) :: cs)
      else none
    else if 0xDC00 ≤ u ∧ u < 0xE000 then none
    else (decodeUtf16 (v :: rest)).map (fun cs => Char.ofNat u :: cs)

/-- A lowercase hexadecimal digit. -/
def hexDigit (n : Nat) : Char := if n < 10 then Char.ofNat (48 + n) else Char.ofNat (87 + n)

/-- `QuoteJSONString` for one code point: the two-character escapes, `\u00XX` for the
other control characters, the character itself otherwise. -/
def quoteChar (c : Char) : List Char :=
  if c = Char.ofNat 8 then [chBackslash, 'b']
  else if c = Char.ofNat 9 then [chBackslash, 't']
  else if c = Char.ofNat 10 then [chBackslash, 'n']
  else if c = Char.ofNat 12 then [chBackslash, 'f']
  else if c = Char.ofNat 13 then [chBackslash, 'r']
  else if c = chQuote then [chBackslash, chQuote]
  else if c = chBackslash then [chBackslash, chBackslash]
  else if c.toNat < 0x20 then
    [chBackslash, 'u', '0', '0', hexDigit (c.toNat / 16), hexDigit (c.toNat % 16)]
  else [c]

/-- `QuoteJSONString`. -/
def quoteJSONString (s : String) : List Char :=
  chQuote :: (s.data.flatMap quoteChar ++ [chQuote])

/-- `JSON.stringify` of a task object: its four properties in creation order. -/
def stringifyTask (t : TaskRecord) : List Char :=
  [chLBrace] ++ quoteJSONString "title" ++ [':'] ++ quoteJSONString t.title ++ [','] ++
    quoteJSONString "summary" ++ [':'] ++ quoteJSONString t.summary ++ [','] ++
    quoteJSONString "state" ++ [':'] ++ quoteJSONString t.state ++ [','] ++
    quoteJSONString "deadline" ++ [':'] ++ quoteJSONString t.deadline ++ [chRBrace]

/-- The elements of an array separated by commas. -/
def stringifyElements : List TaskRecord → List Char
  | [] => []
  | [t] => stringifyTask t
  | t :: ts => stringifyTask t ++ [','] ++ stringifyElements ts

/-- `JSON.stringify` of an array of task objects. -/
def jsonStringify (tasks : List TaskRecord) : String :=
  ⟨['['] ++ stringifyElements tasks ++ [']']⟩

/-- A value produced by `JSON.parse`.  Numbers keep their literal; object members are in
text order, a later duplicate key overriding an earlier one. -/
inductive Json where
  | null : Json
  | bool (b : Bool) : Json
  | num (literal : List Char) : Json
  | str (codeUnits : List Nat) : Json
  | arr (items : List Json) : Json
  | obj (members : List (List Nat × Json)) : Json

/-- Outcome of a parsing function: a value with the unread input, a `SyntaxError`, or an
exhausted recursion budget. -/
inductive Parsed (α : Type) where
  | ok (value : α) (rest : List Char) : Parsed α
  | syntaxError : Parsed α
  | outOfFuel : Parsed α

/-- JSON white space. -/
def isWs (c : Char) : Bool :=
  c = ' ' ∨ c = Char.ofNat 9 ∨ c = Char.ofNat 10 ∨ c = Char.ofNat 13

/-- Drop leading white space. -/
def skipWs : List Char → List Char
  | [] => []
  | c :: cs => if isWs c then skipWs cs else c :: cs

/-- Value of a hexadecimal digit of either case. -/
def hexVal (c : Char) : Option Nat :=
  if c.isDigit then some (c.toNat - 48)
  else if 'a'.toNat ≤ c.toNat ∧ c.toNat ≤ 'f'.toNat then some (c.toNat - 87)
  else if 'A'.toNat ≤ c.toNat ∧ c.toNat ≤ 'F'.toNat then some (c.toNat - 55)
  else none

/-- The code unit denoted by the character after a backslash (other than `u`). -/
def escapeUnit (c : Char) : Option Nat :=
  if c = chQuote then some 0x22
  else if c = chBackslash then some 0x5C
  else if c = '/' then some 0x2F
  else if c = 'b' then some 8
  else if c = 'f' then some 12
  else if c = 'n' then some 10
  else if c = 'r' then some 13
  else if c = 't' then some 9
  else none

/-- Where the scanner of a string literal stands. -/
inductive StrMode where
  | plain : StrMode
  | escape : StrMode
  | hex (remaining value : Nat) : StrMode

/-- Scan a string literal after its opening quote, collecting code units up to the
closing quote. -/
def parseStringBody : StrMode → List Nat → List Char → Parsed (List Nat)
  | _, _, [] => .syntaxError
  | .plain, acc, c :: rest =>
    if c = chQuote then .ok acc rest
    else if c = chBackslash then parseStringBody .escape acc rest
    else if c.toNat < 0x20 then .syntaxError
    else parseStringBody .plain (acc ++ utf16 c) rest
  | .escape, acc, c :: rest =>
    if c = 'u' then parseStringBody (.hex 4 0) acc rest
    else
      match escapeUnit c with
      | some u => parseStringBody .plain (acc ++ [u]) rest
      | none => .syntaxError
  | .hex n v, acc, c :: rest =>
    match hexVal c with
    | none => .syntaxError
    | some h =>
      if n ≤ 1 then parseStringBody .plain (acc ++ [16 * v + h]) rest
      else parseStringBody (.hex (n - 1) (16 * v + h)) acc rest

/-- The leading run of decimal digits and what follows it. -/
def spanDigits : List Char → List Char × List Char
  | [] => ([], [])
  | c :: cs =>
    if c.isDigit then (c :: (spanDigits cs).1, (spanDigits cs).2)
    else ([], c :: cs)

/-- The optional fraction of a number: a point and at least one digit. -/
def parseFraction (cs : List Char) : Parsed (List Char) :=
  match cs with
  | c :: r =>
    if c = '.' then
      match spanDigits r with
      | ([], _) => .syntaxError
      | (d :: ds, r') => .ok ('.' :: d :: ds) r'
    else .ok [] (c :: r)
  | [] => .ok [] []

/-- The digits of an exponent: at least one. -/
def parseExponentDigits (cs : List Char) : Parsed (List Char) :=
  match spanDigits cs with
  | ([], _) => .syntaxError
  | (d :: ds, r) => .ok (d :: ds) r

/-- The optional exponent of a number: `e` or `E`, an optional sign, at least one digit. -/
def parseExponent (cs : List Char) : Parsed (List Char) :=
  match cs with
  | c :: r =>
    if c = 'e' ∨ c = 'E' then
      match r with
      | s :: r' =>
        if s = '+' ∨ s = '-' then
          match parseExponentDigits r' with
          | .ok ds r'' => .ok (c :: s :: ds) r''
          | .syntaxError => .syntaxError
          | .outOfFuel => .outOfFuel
        else
          match parseExponentDigits (s :: r') with
          | .ok ds r'' => .ok (c :: ds) r''
          | .syntaxError => .syntaxError
          | .outOfFuel => .outOfFuel
      | [] => .syntaxError
    else .ok [] (c :: r)
  | [] => .ok [] []

/-- The integer part of a number: `0`, or a non-zero digit followed by digits. -/
def parseInteger (cs : List Char) : Parsed (List Char) :=
  match cs with
  | c :: r =>
    if c = '0' then .ok ['0'] r
    else if c.isDigit then .ok (c :: (spanDigits r).1) (spanDigits r).2
    else .syntaxError
  | [] => .syntaxError

/-- A number without its sign. -/
def parseUnsigned (cs : List Char) : Parsed (List Char) :=
  match parseInteger cs with
  | .ok i r =>
    match parseFraction r with
    | .ok f r' =>
      match parseExponent r' with
      | .ok e r'' => .ok (i ++ f ++ e) r''
      | .syntaxError => .syntaxError
      | .outOfFuel => .outOfFuel
    | .syntaxError => .syntaxError
    | .outOfFuel => .outOfFuel
  | .syntaxError => .syntaxError
  | .outOfFuel => .outOfFuel

/-- A JSON number literal. -/
def parseNumber (cs : List Char) : Parsed (List Char) :=
  match cs with
  | c :: r =>
    if c = '-' then
      match parseUnsigned r with
      | .ok n r' => .ok ('-' :: n) r'
      | .syntaxError => .syntaxError
      | .outOfFuel => .outOfFuel
    else parseUnsigned (c :: r)
  | [] => .syntaxError

/-- Read the characters `lit` from the front of the input. -/
def dropLiteral : List Char → List Char → Option (List Char)
  | [], cs => some cs
  | _ :: _, [] => none
  | l :: lit, c :: cs => if l = c then dropLiteral lit cs else none

mutual

/-- A JSON value, with leading white space. -/
def parseValue : Nat → List Char → Parsed Json
  | 0, _ => .outOfFuel
  | fuel + 1, cs =>
    match skipWs cs with
    | [] => .syntaxError
    | c :: r =>
      if c = chQuote then
        match parseStringBody .plain [] r with
        | .ok u r' => .ok (.str u) r'
        | .syntaxError => .syntaxError
        | .outOfFuel => .outOfFuel
      else if c = '[' then
        match skipWs r with
        | [] => .syntaxError
        | d :: r' => if d = ']' then .ok (.arr []) r' else parseElements fuel [] (d :: r')
      else if c = chLBrace then
        match skipWs r with
        | [] => .syntaxError
        | d :: r' => if d = chRBrace then .ok (.obj []) r' else parseMembers fuel [] (d :: r')
      else if c = 'n' then
        match dropLiteral ['u', 'l', 'l'] r with
        | some r' => .ok .null r'
        | none => .syntaxError
      else if c = 't' then
        match dropLiteral ['r', 'u', 'e'] r with
        | some r' => .ok (.bool true) r'
        | none => .syntaxError
      else if c = 'f' then
        match dropLiteral ['a', 'l', 's', 'e'] r with
        | some r' => .ok (.bool false) r'
        | none => .syntaxError
      else
        match parseNumber (c :: r) with
        | .ok n r' => .ok (.num n) r'
        | .syntaxError => .syntaxError
        | .outOfFuel => .outOfFuel

/-- The elements of a non-empty array and its closing bracket. -/
def parseElements : Nat → List Json → List Char → Parsed Json
  | 0, _, _ => .outOfFuel
  | fuel + 1, acc, cs =>
    match parseValue fuel cs with
    | .ok v r =>
      match skipWs r with
      | [] => .syntaxError
      | d :: r' =>
        if d = ',' then parseElements fuel (acc ++ [v]) r'
        else if d = ']' then .ok (.arr (acc ++ [v])) r'
        else .syntaxError
    | .syntaxError => .syntaxError
    | .outOfFuel => .outOfFuel

/-- The members of a non-empty object and its closing brace. -/
def parseMembers : Nat → List (List Nat × Json) → List Char → Parsed Json
  | 0, _, _ => .outOfFuel
  | fuel + 1, acc, cs =>
    match skipWs cs with
    | [] => .syntaxError
    | c :: r =>
      if c = chQuote then
        match parseStringBody .plain [] r with
        | .ok k r₁ =>
          match skipWs r₁ with
          | [] => .syntaxError
          | d :: r₂ =>
            if d = ':' then
              match parseValue fuel r₂ with
              | .ok v r₃ =>
                match skipWs r₃ with
                | [] => .syntaxError
                | e :: r₄ =>
                  if e = ',' then parseMembers fuel (acc ++ [(k, v)]) r₄
                  else if e = chRBrace then .ok (.obj (acc ++ [(k, v)])) r₄
                  else .syntaxError
              | .syntaxError => .syntaxError
              | .outOfFuel => .outOfFuel
            else .syntaxError
        | .syntaxError => .syntaxError
        | .outOfFuel => .outOfFuel
      else .syntaxError

end

/-- `JSON.parse`: one value surrounded by optional white space, nothing else. -/
def jsonParse (s : String) : Parsed Json :=
  match parseValue (2 * s.data.length + 1) s.data with
  | .ok v rest => if skipWs rest = [] then .ok v [] else .syntaxError
  | .syntaxError => .syntaxError
  | .outOfFuel => .outOfFuel

/-- The value of property `key` of a parsed object: its last occurrence. -/
def lookupMember (key : List Nat) : List (List Nat × Json) → Option Json
  | [] => none
  | (k, v) :: ms =>
    match lookupMember key ms with
    | some w => some w
    | none => if k = key then some v else none

/-- A parsed value read as a JavaScript string without unpaired surrogates. -/
def Json.asString : Json → Option String
  | .str u => (decodeUtf16 u).map String.mk
  | _ => none

/-- The property names of a task object. -/
def taskKeys : List (List Nat) :=
  [units "title", units "summary", units "state", units "deadline"]

/-- A parsed value read as a task record: an object whose properties are exactly
`title`, `summary`, `state` and `deadline`, each a string. -/
def Json.asTask : Json → Option TaskRecord
  | .obj ms =>
    if ms.all (fun m => taskKeys.contains m.1) then
      match (lookupMember (units "title") ms).bind Json.asString,
            (lookupMember (units "summary") ms).bind Json.asString,
            (lookupMember (units "state") ms).bind Json.asString,
            (lookupMember (units "deadline") ms).bind Json.asString with
      | some t, some s, some st, some d => some ⟨t, s, st, d⟩
      | _, _, _, _ => none
    else none
  | _ => none

/-- A list of parsed values read as task records, all or nothing. -/
def asTaskList : List Json → Option (List TaskRecord)
  | [] => some []
  | v :: vs =>
    match v.asTask, asTaskList vs with
    | some t, some ts => some (t :: ts)
    | _, _ => none

/-- A parsed value read as a sequence of task records. -/
def Json.asTasks : Json → Option (List TaskRecord)
  | .arr items => asTaskList items
  | _ => none

/-- The JavaScript value of a task record: an object with its four string properties. -/
def taskJson (t : TaskRecord) : Json :=
  .obj [(units "title", .str (units t.title)), (units "summary", .str (units t.summary)),
    (units "state", .str (units t.state)), (units "deadline", .str (units t.deadline))]

/-! ## Component state and handlers -/

/-- The `useState` cells of `MyTaskApp` (theme apart) and the `"tasks"` key of
`localStorage` (`none`: the key is absent). -/
structure AppState where
  taskList : List TaskRecord
  storage : Option String
  isCreateModalVisible : Bool
  titleInput : String
  summaryInput : String
  stateInput : String
  deadlineInput : String
  isEditModalVisible : Bool
  currentEditIndex : Option Nat
  editTitleInput : String
  editSummaryInput : String
  editStateInput : String
  editDeadlineInput : String
  highlightState : Option String
  stateFilter : Option String
  sortByDueDate : Bool

/-- The state at first render, over a given storage content. -/
def initialState (storage : Option String) : AppState :=
  { taskList := [], storage := storage, isCreateModalVisible := false,
    titleInput := "", summaryInput := "", stateInput := "Not done", deadlineInput := "",
    isEditModalVisible := false, currentEditIndex := none,
    editTitleInput := "", editSummaryInput := "", editStateInput := "Not done",
    editDeadlineInput := "", highlightState := none, stateFilter := none,
    sortByDueDate := false }

/-- How a handler can end other than by returning. -/
inductive Fault where
  /-- `JSON.parse` threw a `SyntaxError`. -/
  | syntaxError : Fault
  /-- A property of `undefined` was read. -/
  | typeError : Fault
  /-- The handler returned, leaving a value that is not a sequence of task records
  (a foreign parsed value, an array with holes). -/
  | outsideModel : Fault
  /-- The recursion budget of the parser model ran out. -/
  | outOfFuel : Fault
deriving DecidableEq, Repr

/-- `persistTasks`: `localStorage.setItem("tasks", JSON.stringify(updatedTasks))`. -/
def persistTasks (updatedTasks : List TaskRecord) (st : AppState) : AppState :=
  { st with storage := some (jsonStringify updatedTasks) }

/-- `retrieveTasksFromStorage` (`App.js` lines 40-45): when the stored string is truthy,
the task list is set to what `JSON.parse` returns. -/
def retrieveTasksFromStorage (st : AppState) : Except Fault AppState :=
  match st.storage with
  | none => .ok st
  | some storedData =>
    if truthy (some storedData) then
      match jsonParse storedData with
      | .ok v _ =>
        match v.asTasks with
        | some tasks => .ok { st with taskList := tasks }
        | none => .error .outsideModel
      | .syntaxError => .error .syntaxError
      | .outOfFuel => .error .outOfFuel
    else .ok st

/-- `addNewTask` (`App.js` lines 61-80). -/
def addNewTask (st : AppState) : AppState :=
  let freshTask : TaskRecord :=
    { title := st.titleInput, summary := st.summaryInput, state := st.stateInput,
      deadline := st.deadlineInput }
  let newArray := st.taskList ++ [freshTask]
  { persistTasks newArray st with
    taskList := newArray, titleInput := "", summaryInput := "", stateInput := "Not done",
    deadlineInput := "" }

/-- The operand `x || fallback` for a string `x`. -/
def orElse (x fallback : String) : String := if x ≠ "" then x else fallback

/-- `openEditDialog` (`App.js` lines 93-103).  Reading `itemToEdit.title` of a missing
element throws. -/
def openEditDialog (index : Nat) (st : AppState) : Except Fault AppState :=
  match st.taskList[index]? with
  | none => .error .typeError
  | some itemToEdit =>
    .ok { st with
      currentEditIndex := some index,
      editTitleInput := orElse itemToEdit.title "",
      editSummaryInput := orElse itemToEdit.summary "",
      editStateInput := orElse itemToEdit.state "Not done",
      editDeadlineInput := orElse itemToEdit.deadline "",
      isEditModalVisible := true }

/-- `confirmEdits` (`App.js` lines 106-120).  With `currentEditIndex` still `null` the
assignment creates a property named `"null"` and no element changes; an index past the end
would leave an array with holes. -/
def confirmEdits (st : AppState) : Except Fault AppState :=
  match st.currentEditIndex with
  | none => .ok { persistTasks st.taskList st with isEditModalVisible := false }
  | some i =>
    match st.taskList[i]? with
    | some old =>
      let updated := st.taskList.set i
        { old with
          title := st.editTitleInput, summary := st.editSummaryInput,
          state := st.editStateInput, deadline := st.editDeadlineInput }
      .ok { persistTasks updated st with taskList := updated, isEditModalVisible := false }
    | none =>
      if i = st.taskList.length then
        let updated := st.taskList ++
          [{ title := st.editTitleInput, summary := st.editSummaryInput,
             state := st.editStateInput, deadline := st.editDeadlineInput }]
        .ok { persistTasks updated st with taskList := updated, isEditModalVisible := false }
      else .error .outsideModel

/-- `Array.prototype.filter` with a callback that also receives the index, counted from
`start`. -/
def filterWithIndex {α : Type} (keep : α → Nat → Bool) : Nat → List α → List α
  | _, [] => []
  | start, a :: l =>
    if keep a start then a :: filterWithIndex keep (start + 1) l
    else filterWithIndex keep (start + 1) l

/-- `removeTask` (`App.js` lines 123-129). -/
def removeTask (index : Nat) (st : AppState) : AppState :=
  let remaining := filterWithIndex (fun _ i => i ≠ index) 0 st.taskList
  { persistTasks remaining st with taskList := remaining }

/-- `tasksToDisplay` (`App.js` line 136). -/
def tasksToDisplay (st : AppState) : List TaskRecord :=
  deriveDisplayedTasks st.taskList st.stateFilter st.highlightState st.sortByDueDate


/-! ## Lemmas on the sort -/

section SortLemmas

variable {α : Type}

theorem insertBy_perm (cmp : α → α → Int) (a : α) (l : List α) :
    (insertBy cmp a l).Perm (a :: l) := by
  induction l with
  | nil => exact List.Perm.refl _
  | cons b l ih =>
    unfold insertBy
    split
    · exact List.Perm.refl _
    · exact (List.Perm.cons b ih).trans (List.Perm.swap a b l)

theorem arraySort_perm (cmp : α → α → Int) (l : List α) : (arraySort cmp l).Perm l := by
  induction l with
  | nil => exact List.Perm.refl _
  | cons a l ih =>
    unfold arraySort
    exact (insertBy_perm cmp a _).trans (List.Perm.cons a ih)

theorem mem_arraySort (cmp : α → α → Int) (l : List α) (x : α) :
    x ∈ arraySort cmp l ↔ x ∈ l :=
  (arraySort_perm cmp l).mem_iff

/-- An element passes every leading element it compares strictly greater than. -/
theorem insertBy_append_of_pos (cmp : α → α → Int) (a : α) (xs ys : List α)
    (h : ∀ b ∈ xs, 0 < cmp a b) : insertBy cmp a (xs ++ ys) = xs ++ insertBy cmp a ys := by
  induction xs with
  | nil => rfl
  | cons b xs ih =>
    have hb : ¬ cmp a b ≤ 0 := not_le.mpr (h b (List.mem_cons_self b xs))
    have ih2 := ih (fun c hc => h c (List.mem_cons_of_mem b hc))
    show insertBy cmp a (b :: (xs ++ ys)) = b :: (xs ++ insertBy cmp a ys)
    rw [← ih2]
    simp only [insertBy, hb, if_false]

/-- An element stays in front of a list whose head it does not compare greater than. -/
theorem insertBy_of_head_le (cmp : α → α → Int) (a : α) (l : List α)
    (h : ∀ b ∈ l.head?, cmp a b ≤ 0) : insertBy cmp a l = a :: l := by
  cases l with
  | nil => rfl
  | cons b l =>
    have hb : cmp a b ≤ 0 := h b (by simp)
    simp only [insertBy, hb, if_true]

/-- Sorting leaves a list that is already in order untouched. -/
theorem arraySort_of_pairwise (cmp : α → α → Int) (l : List α)
    (h : l.Pairwise (fun a b => cmp a b ≤ 0)) : arraySort cmp l = l := by
  induction l with
  | nil => rfl
  | cons a l ih =>
    rw [List.pairwise_cons] at h
    unfold arraySort
    rw [ih h.2]
    apply insertBy_of_head_le
    intro b hb
    exact h.1 b (List.mem_of_mem_head? hb)

/-- Stability of one insertion: a class of elements that never compare strictly greater
than one another keeps its order. -/
theorem filter_insertBy (cmp : α → α → Int) (p : α → Bool) (a : α) (l : List α)
    (h : ∀ b ∈ l, p a = true → p b = true → cmp a b ≤ 0) :
    (insertBy cmp a l).filter p = (a :: l).filter p := by
  induction l with
  | nil => rfl
  | cons b l ih =>
    unfold insertBy
    split
    · rfl
    · rename_i hgt
      have ih2 := ih (fun c hc => h c (List.mem_cons_of_mem b hc))
      have hab : ¬ (p a = true ∧ p b = true) := fun hh =>
        hgt (h b (List.mem_cons_self b l) hh.1 hh.2)
      rw [List.filter_cons, ih2]
      by_cases hpa : p a = true
      · have hpb : p b = false := by
          cases hb : p b
          · rfl
          · exact absurd ⟨hpa, hb⟩ hab
        simp [List.filter_cons, hpa, hpb]
      · have hpa2 : p a = false := by simpa using hpa
        simp [List.filter_cons, hpa2]

/-- Stability of the sort. -/
theorem filter_arraySort (cmp : α → α → Int) (p : α → Bool) (l : List α)
    (h : ∀ a ∈ l, ∀ b ∈ l, p a = true → p b = true → cmp a b ≤ 0) :
    (arraySort cmp l).filter p = l.filter p := by
  induction l with
  | nil => rfl
  | cons a l ih =>
    unfold arraySort
    rw [filter_insertBy]
    · have ih2 := ih (fun x hx y hy => h x (List.mem_cons_of_mem a hx) y
        (List.mem_cons_of_mem a hy))
      simp only [List.filter_cons, ih2]
    · intro b hb
      exact h a (List.mem_cons_self a l) b
        (List.mem_cons_of_mem a ((mem_arraySort cmp l b).mp hb))

theorem pairwise_insertBy (cmp : α → α → Int) (a : α) (l : List α)
    (htot : ∀ b ∈ l, ¬ cmp a b ≤ 0 → cmp b a ≤ 0)
    (htrans : ∀ b ∈ l, ∀ c ∈ l, cmp a b ≤ 0 → cmp b c ≤ 0 → cmp a c ≤ 0)
    (hs : l.Pairwise (fun x y => cmp x y ≤ 0)) :
    (insertBy cmp a l).Pairwise (fun x y => cmp x y ≤ 0) := by
  induction l with
  | nil => simp [insertBy]
  | cons b l ih =>
    rw [List.pairwise_cons] at hs
    unfold insertBy
    split
    · rename_i hab
      refine List.Pairwise.cons ?_ (List.Pairwise.cons hs.1 hs.2)
      intro c hc
      rcases List.mem_cons.mp hc with rfl | hc
      · exact hab
      · exact htrans b (List.mem_cons_self b l) c (List.mem_cons_of_mem b hc) hab (hs.1 c hc)
    · rename_i hab
      refine List.Pairwise.cons ?_ (ih (fun c hc => htot c (List.mem_cons_of_mem b hc))
        (fun c hc d hd => htrans c (List.mem_cons_of_mem b hc) d (List.mem_cons_of_mem b hd))
        hs.2)
      intro c hc
      rcases List.mem_cons.mp ((insertBy_perm cmp a l).mem_iff.mp hc) with rfl | hc
      · exact htot b (List.mem_cons_self b l) hab
      · exact hs.1 c hc

/-- The sort orders its input when the comparator is total and transitive on it. -/
theorem pairwise_arraySort (cmp : α → α → Int) (l : List α)
    (htot : ∀ a ∈ l, ∀ b ∈ l, ¬ cmp a b ≤ 0 → cmp b a ≤ 0)
    (htrans : ∀ a ∈ l, ∀ b ∈ l, ∀ c ∈ l, cmp a b ≤ 0 → cmp b c ≤ 0 → cmp a c ≤ 0) :
    (arraySort cmp l).Pairwise (fun x y => cmp x y ≤ 0) := by
  induction l with
  | nil => simp [arraySort]
  | cons a l ih =>
    unfold arraySort
    have hm : ∀ x, x ∈ arraySort cmp l → x ∈ a :: l := fun x hx =>
      List.mem_cons_of_mem a ((mem_arraySort cmp l x).mp hx)
    apply pairwise_insertBy
    · intro b hb
      exact htot a (List.mem_cons_self a l) b (hm b hb)
    · intro b hb c hc
      exact htrans a (List.mem_cons_self a l) b (hm b hb) c (hm c hc)
    · exact ih (fun x hx y hy => htot x (List.mem_cons_of_mem a hx) y (List.mem_cons_of_mem a hy))
        (fun x hx y hy z hz => htrans x (List.mem_cons_of_mem a hx) y
          (List.mem_cons_of_mem a hy) z (List.mem_cons_of_mem a hz))

/-- Two ordered arrangements of the same elements coincide when the order is
antisymmetric on them. -/
theorem eq_of_perm_of_pairwise (r : α → α → Prop) (l₁ l₂ : List α) (hp : l₁.Perm l₂)
    (h₁ : l₁.Pairwise r) (h₂ : l₂.Pairwise r)
    (anti : ∀ a ∈ l₁, ∀ b ∈ l₁, r a b → r b a → a = b) : l₁ = l₂ := by
  induction l₁ generalizing l₂ with
  | nil => exact (List.Perm.nil_eq hp)
  | cons a t₁ ih =>
    cases l₂ with
    | nil => exact absurd hp.symm (List.nil_perm.not.mpr (List.cons_ne_nil a t₁))
    | cons b t₂ =>
      rw [List.pairwise_cons] at h₁ h₂
      have hab : a = b := by
        by_contra hne
        have ha : a ∈ t₂ := by
          rcases List.mem_cons.mp (hp.mem_iff.mp (List.mem_cons_self a t₁)) with h | h
          · exact absurd h hne
          · exact h
        have hb : b ∈ t₁ := by
          rcases List.mem_cons.mp (hp.mem_iff.mpr (List.mem_cons_self b t₂)) with h | h
          · exact absurd h.symm hne
          · exact h
        exact hne (anti a (List.mem_cons_self a t₁) b (List.mem_cons_of_mem a hb)
          (h₁.1 b hb) (h₂.1 a ha))
      subst hab
      rw [ih t₂ (List.Perm.cons_inv hp) h₁.2 h₂.2
        (fun x hx y hy => anti x (List.mem_cons_of_mem a hx) y (List.mem_cons_of_mem a hy))]

/-- A list in which no element outside `p` precedes an element of `p` is its `p`-part
followed by the rest. -/
theorem eq_filter_append_of_pairwise (p : α → Bool) (l : List α)
    (h : l.Pairwise (fun a b => p b = true → p a = true)) :
    l = l.filter p ++ l.filter (fun x => !p x) := by
  induction l with
  | nil => rfl
  | cons a l ih =>
    rw [List.pairwise_cons] at h
    by_cases hpa : p a = true
    · simp only [List.filter_cons, hpa, if_true, Bool.not_true, List.cons_append]
      simp only [Bool.false_eq_true, if_false]
      rw [← ih h.2]
    · have hpa2 : p a = false := by simpa using hpa
      have hnone : l.filter p = [] := by
        rw [List.filter_eq_nil_iff]
        intro b hb hpb
        exact hpa (h.1 b hb hpb)
      have hall : l.filter (fun x => !p x) = l := by
        rw [List.filter_eq_self]
        intro b hb
        cases hpb : p b
        · rfl
        · exact absurd (h.1 b hb hpb) hpa
      simp [List.filter_cons, hpa2, hnone, hall]

end SortLemmas

/-! ## Lemmas on dates -/

section DateLemmas

theorem daysBeforeMonth_succ (y m : Nat) (hm : 1 ≤ m) :
    daysBeforeMonth y (m + 1) = daysBeforeMonth y m + daysInMonth y m := by
  obtain ⟨k, rfl⟩ : ∃ k, m = k + 1 := ⟨m - 1, by omega⟩
  simp [daysBeforeMonth, List.range_succ]

theorem daysBeforeMonth_mono (y m₁ m₂ : Nat) (h₁ : 1 ≤ m₁) (h : m₁ < m₂) :
    daysBeforeMonth y m₁ + daysInMonth y m₁ ≤ daysBeforeMonth y m₂ := by
  induction m₂ with
  | zero => omega
  | succ n ih =>
    by_cases hn : m₁ = n
    · subst hn
      rw [daysBeforeMonth_succ y m₁ h₁]
    · have := ih (by omega)
      rw [daysBeforeMonth_succ y n (by omega)]
      omega

theorem daysBeforeMonth_thirteen (y : Nat) :
    daysBeforeMonth y 13 = if isLeap y then 366 else 365 := by
  cases h : isLeap y <;> simp [daysBeforeMonth, List.range_succ, daysInMonth, h]

theorem dayFromYear_succ (y : Nat) :
    dayFromYear ((y : Int) + 1) = dayFromYear y + (if isLeap y then 366 else 365) := by
  unfold dayFromYear isLeap
  split <;> rename_i h <;> simp at h <;> omega

theorem dayFromYear_mono (y₁ y₂ : Nat) (h : y₁ ≤ y₂) :
    dayFromYear (y₁ : Int) ≤ dayFromYear (y₂ : Int) := by
  induction y₂ with
  | zero =>
    have : y₁ = 0 := by omega
    subst this
    exact le_refl _
  | succ n ih =>
    by_cases hn : y₁ = n + 1
    · subst hn
      exact le_refl _
    · have h1 := ih (by omega)
      have h2 := dayFromYear_succ n
      have h3 : (0 : Int) ≤ (if isLeap n then 366 else 365) := by split <;> omega
      push_cast
      omega

end DateLemmas

section DateOrder

theorem timeValue_lt (y₁ m₁ d₁ y₂ m₂ d₂ : Nat)
    (hm₁ : 1 ≤ m₁ ∧ m₁ ≤ 12) (hd₁ : 1 ≤ d₁ ∧ d₁ ≤ daysInMonth y₁ m₁)
    (hm₂ : 1 ≤ m₂ ∧ m₂ ≤ 12) (hd₂ : 1 ≤ d₂ ∧ d₂ ≤ daysInMonth y₂ m₂)
    (h : civilLE (y₂, m₂, d₂) (y₁, m₁, d₁) = false) :
    timeValue y₁ m₁ d₁ < timeValue y₂ m₂ d₂ := by
  have hlt : y₁ < y₂ ∨ (y₁ = y₂ ∧ (m₁ < m₂ ∨ (m₁ = m₂ ∧ d₁ < d₂))) := by
    simp only [civilLE, Bool.decide_or, Bool.decide_and, Bool.or_eq_false_iff,
      Bool.and_eq_false_iff, decide_eq_false_iff_not] at h
    omega
  have hday : dayFromYear y₁ + daysBeforeMonth y₁ m₁ + ((d₁ : Int) - 1)
      < dayFromYear y₂ + daysBeforeMonth y₂ m₂ + ((d₂ : Int) - 1) := by
    rcases hlt with hy | ⟨rfl, hm | ⟨rfl, hd⟩⟩
    · have e1 := daysBeforeMonth_mono y₁ m₁ 13 hm₁.1 (by omega)
      have e2 := daysBeforeMonth_thirteen y₁
      have e3 := dayFromYear_succ y₁
      have e4 := dayFromYear_mono (y₁ + 1) y₂ hy
      push_cast at e4
      split at e2 <;> rename_i hl <;> simp only [hl, if_true, if_false] at e3 <;> omega
    · have e1 := daysBeforeMonth_mono y₁ m₁ m₂ hm₁.1 hm
      omega
    · omega
  unfold timeValue msPerDay
  omega

end DateOrder

section DeadlineComparator

/-- The two shapes of a well-formed deadline, as the comparator sees them. -/
theorem deadlineDate_cases (t : TaskRecord) (h : wellFormedDeadline t.deadline = true) :
    (t.deadline = "" ∧ deadlineDate t = none) ∨
    (t.deadline ≠ "" ∧ ∃ y m d, dateFields t.deadline = some (y, m, d) ∧
      (1 ≤ m ∧ m ≤ 12) ∧ (1 ≤ d ∧ d ≤ daysInMonth y m) ∧
      deadlineDate t = some (some (timeValue y m d))) := by
  by_cases he : t.deadline = ""
  · left
    exact ⟨he, by simp [deadlineDate, he]⟩
  · right
    refine ⟨he, ?_⟩
    have hv : validDate t.deadline = true := by
      simpa [wellFormedDeadline, he] using h
    have hv2 := hv
    unfold validDate at hv2
    cases hf : dateFields t.deadline with
    | none => simp [hf] at hv2
    | some f =>
      obtain ⟨y, m, d⟩ := f
      simp only [hf, decide_eq_true_eq] at hv2
      refine ⟨y, m, d, rfl, ⟨hv2.1, hv2.2.1⟩, ⟨hv2.2.2.1, hv2.2.2.2⟩, ?_⟩
      simp [deadlineDate, he, dateParse, hf, hv]

theorem civilLE_antisymm (a b : Nat × Nat × Nat) (h₁ : civilLE a b = true)
    (h₂ : civilLE b a = true) : a = b := by
  obtain ⟨a1, a2, a3⟩ := a
  obtain ⟨b1, b2, b3⟩ := b
  simp only [civilLE, Bool.decide_or, Bool.decide_and, Bool.or_eq_true, Bool.and_eq_true,
    decide_eq_true_eq] at h₁ h₂
  simp only [Prod.mk.injEq]
  omega

/-- On well-formed deadlines the comparator is non-positive exactly when the first task
may stand before the second in ascending calendar order, undated last. -/
theorem deadlineCompare_le_iff (a b : TaskRecord) (ha : wellFormedDeadline a.deadline = true)
    (hb : wellFormedDeadline b.deadline = true) :
    deadlineCompare a b ≤ 0 ↔ deadlineLE a b = true := by
  rcases deadlineDate_cases a ha with ⟨ea, da⟩ | ⟨ea, ya, ma, da', fa, hma, hda, da⟩ <;>
  rcases deadlineDate_cases b hb with ⟨eb, db⟩ | ⟨eb, yb, mb, db', fb, hmb, hdb, db⟩
  · simp [deadlineCompare, deadlineLE, da, db, eb]
  · simp [deadlineCompare, deadlineLE, da, db, ea, eb]
  · simp [deadlineCompare, deadlineLE, da, db, eb]
  · simp only [deadlineCompare, deadlineLE, da, db, ea, eb, fa, fb, if_false]
    constructor
    · intro h
      by_contra hc
      have hc2 : civilLE (ya, ma, da') (yb, mb, db') = false := by simpa using hc
      have := timeValue_lt yb mb db' ya ma da' hmb hdb hma hda hc2
      omega
    · intro h
      cases hr : civilLE (yb, mb, db') (ya, ma, da')
      · have := timeValue_lt ya ma da' yb mb db' hma hda hmb hdb hr
        omega
      · have := civilLE_antisymm _ _ h hr
        simp only [Prod.mk.injEq] at this
        obtain ⟨rfl, rfl, rfl⟩ := this
        omega

theorem deadlineCompare_total (a b : TaskRecord) (ha : wellFormedDeadline a.deadline = true)
    (hb : wellFormedDeadline b.deadline = true) (h : ¬ deadlineCompare a b ≤ 0) :
    deadlineCompare b a ≤ 0 := by
  rcases deadlineDate_cases a ha with ⟨_, da⟩ | ⟨_, _, _, _, _, _, _, da⟩ <;>
  rcases deadlineDate_cases b hb with ⟨_, db⟩ | ⟨_, _, _, _, _, _, _, db⟩ <;>
  simp only [deadlineCompare, da, db] at h ⊢ <;> omega

theorem deadlineCompare_trans (a b c : TaskRecord) (ha : wellFormedDeadline a.deadline = true)
    (hb : wellFormedDeadline b.deadline = true) (hc : wellFormedDeadline c.deadline = true)
    (h₁ : deadlineCompare a b ≤ 0) (h₂ : deadlineCompare b c ≤ 0) :
    deadlineCompare a c ≤ 0 := by
  rcases deadlineDate_cases a ha with ⟨_, da⟩ | ⟨_, _, _, _, _, _, _, da⟩ <;>
  rcases deadlineDate_cases b hb with ⟨_, db⟩ | ⟨_, _, _, _, _, _, _, db⟩ <;>
  rcases deadlineDate_cases c hc with ⟨_, dc⟩ | ⟨_, _, _, _, _, _, _, dc⟩ <;>
  simp only [deadlineCompare, da, db, dc] at h₁ h₂ ⊢ <;> omega

/-- Tasks with the same deadline string always compare as equal. -/
theorem deadlineCompare_same (a b : TaskRecord) (h : a.deadline = b.deadline) :
    deadlineCompare a b ≤ 0 := by
  have hd : deadlineDate a = deadlineDate b := by simp [deadlineDate, h]
  unfold deadlineCompare
  rw [hd]
  rcases deadlineDate b with _ | _ | t <;> simp

end DeadlineComparator

section DateStrings

theorem digit_bounds (c : Char) (hc : c.isDigit = true) : 48 ≤ c.toNat ∧ c.toNat ≤ 57 := by
  simp only [Char.isDigit, Bool.and_eq_true, decide_eq_true_eq, ge_iff_le] at hc
  have h1 := hc.1
  have h2 := hc.2
  rw [UInt32.le_def] at h1 h2
  exact ⟨h1, h2⟩

theorem digit_eq_of_val (c d : Char) (hc : c.isDigit = true) (hd : d.isDigit = true)
    (h : digitVal c = digitVal d) : c = d := by
  have bc := digit_bounds c hc
  have bd := digit_bounds d hd
  unfold digitVal at h
  apply Char.ext
  apply UInt32.ext
  show c.toNat = d.toNat
  omega

theorem digitVal_lt (c : Char) (hc : c.isDigit = true) : digitVal c < 10 := by
  have bc := digit_bounds c hc
  unfold digitVal
  omega

/-- The shape `DDDD-DD-DD` is determined by its three fields. -/
theorem dateFields_inj (s t : String) (f : Nat × Nat × Nat) (hs : dateFields s = some f)
    (ht : dateFields t = some f) : s = t := by
  unfold dateFields at hs ht
  split at hs
  · rename_i y1 y2 y3 y4 s1 m1 m2 s2 d1 d2 es
    split at ht
    · rename_i z1 z2 z3 z4 t1 n1 n2 t2 e1 e2 et
      split at hs
      · rename_i hcs
        split at ht
        · rename_i hct
          obtain ⟨a1, a2, a3, a4, a5, a6, a7, a8, a9, a10⟩ := hcs
          obtain ⟨b1, b2, b3, b4, b5, b6, b7, b8, b9, b10⟩ := hct
          have hf : (1000 * digitVal y1 + 100 * digitVal y2 + 10 * digitVal y3 + digitVal y4,
              10 * digitVal m1 + digitVal m2, 10 * digitVal d1 + digitVal d2) =
            (1000 * digitVal z1 + 100 * digitVal z2 + 10 * digitVal z3 + digitVal z4,
              10 * digitVal n1 + digitVal n2, 10 * digitVal e1 + digitVal e2) := by
            rw [← Option.some_inj, hs, ht]
          simp only [Prod.mk.injEq] at hf
          obtain ⟨hy, hm, hd⟩ := hf
          have l1 := digitVal_lt y1 a3
          have l2 := digitVal_lt y2 a4
          have l3 := digitVal_lt y3 a5
          have l4 := digitVal_lt y4 a6
          have l5 := digitVal_lt m1 a7
          have l6 := digitVal_lt m2 a8
          have l7 := digitVal_lt d1 a9
          have l8 := digitVal_lt d2 a10
          have k1 := digitVal_lt z1 b3
          have k2 := digitVal_lt z2 b4
          have k3 := digitVal_lt z3 b5
          have k4 := digitVal_lt z4 b6
          have k5 := digitVal_lt n1 b7
          have k6 := digitVal_lt n2 b8
          have k7 := digitVal_lt e1 b9
          have k8 := digitVal_lt e2 b10
          have q1 := digit_eq_of_val y1 z1 a3 b3 (by omega)
          have q2 := digit_eq_of_val y2 z2 a4 b4 (by omega)
          have q3 := digit_eq_of_val y3 z3 a5 b5 (by omega)
          have q4 := digit_eq_of_val y4 z4 a6 b6 (by omega)
          have q5 := digit_eq_of_val m1 n1 a7 b7 (by omega)
          have q6 := digit_eq_of_val m2 n2 a8 b8 (by omega)
          have q7 := digit_eq_of_val d1 e1 a9 b9 (by omega)
          have q8 := digit_eq_of_val d2 e2 a10 b10 (by omega)
          have hdata : s.data = t.data := by
            rw [es, et, q1, q2, q3, q4, q5, q6, q7, q8, a1, a2, b1, b2]
          cases s
          cases t
          simp only at hdata
          rw [hdata]
        · exact absurd ht (by simp)
      · exact absurd hs (by simp)
    · exact absurd ht (by simp)
  · exact absurd hs (by simp)

/-- Two deadlines that each stand before the other are the same string. -/
theorem deadline_eq_of_le_le (a b : TaskRecord) (h₁ : deadlineLE a b = true)
    (h₂ : deadlineLE b a = true) : a.deadline = b.deadline := by
  unfold deadlineLE at h₁ h₂
  by_cases ea : a.deadline = "" <;> by_cases eb : b.deadline = ""
  · rw [ea, eb]
  · simp [ea, eb] at h₁
  · simp [ea, eb] at h₂
  · simp only [ea, eb, if_false] at h₁ h₂
    cases fa : dateFields a.deadline with
    | none => simp [fa] at h₁
    | some x =>
      cases fb : dateFields b.deadline with
      | none => simp [fa, fb] at h₁
      | some y =>
        simp only [fa, fb] at h₁ h₂
        have := civilLE_antisymm x y h₁ h₂
        subst this
        exact dateFields_inj _ _ x fa fb

end DateStrings

/-! ## Lemmas on the view derivation -/

section ViewLemmas

theorem filterStep_subset (stateFilter : Option String) (l : List TaskRecord) :
    ∀ t ∈ filterStep stateFilter l, t ∈ l := by
  intro t ht
  unfold filterStep at ht
  split at ht
  · split at ht
    · exact List.mem_of_mem_filter ht
    · exact ht
  · exact ht

theorem filterStep_some (s : String) (hs : s ≠ "") (l : List TaskRecord) :
    filterStep (some s) l = l.filter (fun item => item.state = s) := by
  simp [filterStep, truthy, hs]

theorem highlightStep_some (h : String) (hh : h ≠ "") (l : List TaskRecord) :
    highlightStep (some h) l = arraySort (highlightCompare h) l := by
  simp [highlightStep, truthy, hh]

theorem highlightStep_perm (highlightState : Option String) (l : List TaskRecord) :
    (highlightStep highlightState l).Perm l := by
  unfold highlightStep
  split
  · split
    · exact arraySort_perm _ _
    · exact List.Perm.refl _
  · exact List.Perm.refl _

theorem highlightCompare_of_match (h : String) (a b : TaskRecord) (ha : a.state = h) :
    highlightCompare h a b ≤ 0 := by
  unfold highlightCompare
  split
  · omega
  · split
    · rename_i hc
      exact absurd ha hc.2
    · omega

theorem highlightCompare_of_both_differ (h : String) (a b : TaskRecord) (hb : b.state ≠ h) :
    highlightCompare h a b ≤ 0 := by
  unfold highlightCompare
  split
  · omega
  · split
    · rename_i hc
      exact absurd hc.1 hb
    · omega

theorem highlightCompare_pos (h : String) (a b : TaskRecord) (ha : a.state ≠ h)
    (hb : b.state = h) : 0 < highlightCompare h a b := by
  unfold highlightCompare
  rw [if_neg (fun hc => ha hc.1), if_pos ⟨hb, ha⟩]
  omega

/-- The highlight sort is the stable partition by `state = h`. -/
theorem arraySort_highlightCompare (h : String) (l : List TaskRecord) :
    arraySort (highlightCompare h) l =
      l.filter (fun t => t.state = h) ++ l.filter (fun t => !decide (t.state = h)) := by
  induction l with
  | nil => rfl
  | cons a l ih =>
    unfold arraySort
    rw [ih]
    by_cases ha : a.state = h
    · rw [insertBy_of_head_le]
      · simp [List.filter_cons, ha]
      · intro b _
        exact highlightCompare_of_match h a b ha
    · rw [insertBy_append_of_pos, insertBy_of_head_le]
      · simp [List.filter_cons, ha]
      · intro b hb
        have hb2 := List.mem_of_mem_head? hb
        have hb3 := (List.mem_filter.mp hb2).2
        exact highlightCompare_of_both_differ h a b (by simpa using hb3)
      · intro b hb
        have hb3 := (List.mem_filter.mp hb).2
        exact highlightCompare_pos h a b ha (by simpa using hb3)

/-- After a filter on state the highlight sort changes nothing. -/
theorem highlightStep_filter (highlightState : Option String) (s : String)
    (l : List TaskRecord) :
    highlightStep highlightState (l.filter (fun item => item.state = s)) =
      l.filter (fun item => item.state = s) := by
  unfold highlightStep
  split
  · rename_i h
    split
    · apply arraySort_of_pairwise
      apply List.pairwise_of_forall_mem_list
      intro a ha b hb
      have sa : a.state = s := by simpa using (List.mem_filter.mp ha).2
      have sb : b.state = s := by simpa using (List.mem_filter.mp hb).2
      by_cases e : s = h
      · exact highlightCompare_of_match h a b (sa.trans e)
      · exact highlightCompare_of_both_differ h a b (by rw [sb]; exact e)
    · rfl
  · rfl

theorem deadlineStep_perm (sortByDueDate : Bool) (l : List TaskRecord) :
    (deadlineStep sortByDueDate l).Perm l := by
  unfold deadlineStep
  split
  · exact arraySort_perm _ _
  · exact List.Perm.refl _

/-- The deadline sort puts a list of well-formed deadlines in ascending calendar order,
undated last. -/
theorem pairwise_deadlineLE_arraySort (l : List TaskRecord)
    (hwf : ∀ t ∈ l, wellFormedDeadline t.deadline = true) :
    (arraySort deadlineCompare l).Pairwise (fun a b => deadlineLE a b = true) := by
  have hp := pairwise_arraySort deadlineCompare l
    (fun a ha b hb => deadlineCompare_total a b (hwf a ha) (hwf b hb))
    (fun a ha b hb c hc => deadlineCompare_trans a b c (hwf a ha) (hwf b hb) (hwf c hc))
  refine List.Pairwise.imp_of_mem ?_ hp
  intro a b ha hb hab
  exact (deadlineCompare_le_iff a b (hwf a ((mem_arraySort _ _ _).mp ha))
    (hwf b ((mem_arraySort _ _ _).mp hb))).mp hab

/-- The deadline sort keeps the order of the tasks that share a deadline. -/
theorem filter_deadline_arraySort (l : List TaskRecord) (d : String) :
    (arraySort deadlineCompare l).filter (fun t => t.deadline = d) =
      l.filter (fun t => t.deadline = d) := by
  apply filter_arraySort
  intro a _ b _ ha hb
  have ea : a.deadline = d := by simpa using ha
  have eb : b.deadline = d := by simpa using hb
  exact deadlineCompare_same a b (ea.trans eb.symm)

/-- With pairwise distinct deadlines the deadline sort of two arrangements of the same
tasks gives the same list. -/
theorem arraySort_deadline_eq_of_perm (l₁ l₂ : List TaskRecord) (hp : l₁.Perm l₂)
    (hwf : ∀ t ∈ l₁, wellFormedDeadline t.deadline = true)
    (hnd : (l₁.map (fun t => t.deadline)).Nodup) :
    arraySort deadlineCompare l₁ = arraySort deadlineCompare l₂ := by
  have hwf₂ : ∀ t ∈ l₂, wellFormedDeadline t.deadline = true :=
    fun t ht => hwf t (hp.mem_iff.mpr ht)
  apply eq_of_perm_of_pairwise (fun a b => deadlineLE a b = true)
  · exact (arraySort_perm _ l₁).trans (hp.trans (arraySort_perm _ l₂).symm)
  · exact pairwise_deadlineLE_arraySort l₁ hwf
  · exact pairwise_deadlineLE_arraySort l₂ hwf₂
  · intro a ha b hb hab hba
    have ha' := (mem_arraySort _ _ _).mp ha
    have hb' := (mem_arraySort _ _ _).mp hb
    exact List.inj_on_of_nodup_map hnd ha' hb' (deadline_eq_of_le_le a b hab hba)

end ViewLemmas

/-! ## Lemmas on the handlers -/

section HandlerLemmas

theorem filterWithIndex_ne {α : Type} (index start : Nat) (l : List α) (h : start ≤ index) :
    filterWithIndex (fun _ i => i ≠ index) start l = l.eraseIdx (index - start) := by
  induction l generalizing start with
  | nil => rfl
  | cons a l ih =>
    unfold filterWithIndex
    by_cases e : start = index
    · subst e
      have hskip : ∀ (s : Nat) (m : List α), start < s →
          filterWithIndex (fun _ i => decide (i ≠ start)) s m = m := by
        intro s m
        induction m generalizing s with
        | nil => intro _; rfl
        | cons b m ihm =>
          intro hs
          unfold filterWithIndex
          have : s ≠ start := by omega
          simp only [this, ne_eq, not_false_eq_true, decide_True, if_true]
          rw [ihm (s + 1) (by omega)]
      simp only [ne_eq, not_true_eq_false, decide_False, Bool.false_eq_true, if_false,
        Nat.sub_self, List.eraseIdx_cons_zero]
      exact hskip (start + 1) l (by omega)
    · have hlt : start + 1 ≤ index := by omega
      simp only [ne_eq, e, not_false_eq_true, decide_True, if_true]
      rw [ih (start + 1) hlt]
      have : index - start = (index - (start + 1)) + 1 := by omega
      rw [this, List.eraseIdx_cons_succ]

theorem removeTask_taskList (index : Nat) (st : AppState) :
    (removeTask index st).taskList = st.taskList.eraseIdx index := by
  simp only [removeTask, persistTasks]
  rw [filterWithIndex_ne index 0 st.taskList (Nat.zero_le _)]
  rfl

/-- With the three controls unset the displayed sequence is the stored one. -/
theorem deriveDisplayedTasks_unset (taskList : List TaskRecord) :
    deriveDisplayedTasks taskList none none false = taskList := by
  simp [deriveDisplayedTasks, deadlineStep, highlightStep, filterStep]

end HandlerLemmas

/-! ## Lemmas on JSON text -/

section JsonLemmas

theorem hexVal_hexDigit (n : Nat) (h : n < 16) : hexVal (hexDigit n) = some n := by
  interval_cases n <;> decide

/-- Scanning the quoted form of one character yields its code units. -/
theorem parseStringBody_quoteChar (c : Char) (acc : List Nat) (tail : List Char) :
    parseStringBody .plain acc (quoteChar c ++ tail) =
      parseStringBody .plain (acc ++ utf16 c) tail := by
  unfold quoteChar
  split_ifs with h1 h2 h3 h4 h5 h6 h7 h8
  · subst h1
    simp [parseStringBody, escapeUnit, utf16, chBackslash, chQuote]
  · subst h2
    simp [parseStringBody, escapeUnit, utf16, chBackslash, chQuote]
  · subst h3
    simp [parseStringBody, escapeUnit, utf16, chBackslash, chQuote]
  · subst h4
    simp [parseStringBody, escapeUnit, utf16, chBackslash, chQuote]
  · subst h5
    simp [parseStringBody, escapeUnit, utf16, chBackslash, chQuote]
  · subst h6
    simp [parseStringBody, escapeUnit, utf16, chBackslash, chQuote]
  · subst h7
    simp [parseStringBody, escapeUnit, utf16, chBackslash, chQuote]
  · have e0 : hexVal '0' = some 0 := by decide
    have e1 := hexVal_hexDigit (c.toNat / 16) (by omega)
    have e2 := hexVal_hexDigit (c.toNat % 16) (by omega)
    have hu : utf16 c = [c.toNat] := by
      unfold utf16
      rw [if_pos (by omega)]
    have hq : chBackslash ≠ chQuote := by decide
    have hb : ('u' : Char) = 'u' := rfl
    simp only [List.cons_append, List.nil_append, parseStringBody, hq, if_false, if_true,
      e0, e1, e2, hu]
    have h41 : ¬ (4 ≤ 1) := by omega
    have h31 : ¬ (3 ≤ 1) := by omega
    have h21 : ¬ (2 ≤ 1) := by omega
    simp only [h41, h31, h21, if_false, Nat.le_refl, if_true]
    have harith : 16 * (c.toNat / 16) + c.toNat % 16 = c.toNat := by omega
    simp [harith]
  · simp [parseStringBody, h6, h7, h8]

theorem parseStringBody_quoted (cs : List Char) (acc : List Nat) (rest : List Char) :
    parseStringBody .plain acc (cs.flatMap quoteChar ++ chQuote :: rest) =
      .ok (acc ++ cs.flatMap utf16) rest := by
  induction cs generalizing acc with
  | nil => simp [parseStringBody]
  | cons c cs ih =>
    simp only [List.flatMap_cons, List.append_assoc]
    rw [parseStringBody_quoteChar, ih]
    simp

end JsonLemmas

section JsonRoundTrip

theorem char_toNat_valid (c : Char) :
    c.toNat < 0xD800 ∨ (0xDFFF < c.toNat ∧ c.toNat < 0x110000) := c.valid

theorem decodeUtf16_cons_of_not_surrogate (u : Nat) (l : List Nat)
    (h : ¬ (0xD800 ≤ u ∧ u < 0xE000)) :
    decodeUtf16 (u :: l) = (decodeUtf16 l).map (fun cs => Char.ofNat u :: cs) := by
  cases l with
  | nil => simp [decodeUtf16, h]
  | cons v rest =>
    have h1 : ¬ (0xD800 ≤ u ∧ u < 0xDC00) := by omega
    have h2 : ¬ (0xDC00 ≤ u ∧ u < 0xE000) := by omega
    simp only [decodeUtf16, h1, h2, if_false]

theorem decodeUtf16_utf16 (c : Char) (l : List Nat) :
    decodeUtf16 (utf16 c ++ l) = (decodeUtf16 l).map (fun cs => c :: cs) := by
  have hv := char_toNat_valid c
  unfold utf16
  split
  · rename_i hlt
    rw [List.singleton_append, decodeUtf16_cons_of_not_surrogate _ _ (by omega),
      Char.ofNat_toNat]
  · rename_i hge
    have h1 : 0xD800 ≤ 0xD800 + (c.toNat - 0x10000) / 0x400 ∧
        0xD800 + (c.toNat - 0x10000) / 0x400 < 0xDC00 := by omega
    have h2 : 0xDC00 ≤ 0xDC00 + (c.toNat - 0x10000) % 0x400 ∧
        0xDC00 + (c.toNat - 0x10000) % 0x400 < 0xE000 := by omega
    have h3 : 0x10000 + (0xD800 + (c.toNat - 0x10000) / 0x400 - 0xD800) * 0x400 +
        (0xDC00 + (c.toNat - 0x10000) % 0x400 - 0xDC00) = c.toNat := by omega
    simp only [List.cons_append, List.nil_append, decodeUtf16, h1, h2, if_true, and_self, h3,
      Char.ofNat_toNat]
    rfl

theorem decodeUtf16_units (cs : List Char) : decodeUtf16 (cs.flatMap utf16) = some cs := by
  induction cs with
  | nil => rfl
  | cons c cs ih =>
    rw [List.flatMap_cons, decodeUtf16_utf16, ih]
    rfl

theorem asString_units (s : String) : (Json.str (units s)).asString = some s := by
  simp [Json.asString, units, decodeUtf16_units]

theorem asTask_taskJson (t : TaskRecord) : (taskJson t).asTask = some t := by
  have hall : ([(units "title", Json.str (units t.title)),
      (units "summary", Json.str (units t.summary)),
      (units "state", Json.str (units t.state)),
      (units "deadline", Json.str (units t.deadline))].all
        (fun m => taskKeys.contains m.1)) = true := by
    simp only [List.all_cons, List.all_nil, Bool.and_true, Bool.and_eq_true]
    exact ⟨by decide, by decide, by decide, by decide⟩
  have k1 : lookupMember (units "title") [(units "title", Json.str (units t.title)),
      (units "summary", Json.str (units t.summary)),
      (units "state", Json.str (units t.state)),
      (units "deadline", Json.str (units t.deadline))] = some (Json.str (units t.title)) := rfl
  have k2 : lookupMember (units "summary") [(units "title", Json.str (units t.title)),
      (units "summary", Json.str (units t.summary)),
      (units "state", Json.str (units t.state)),
      (units "deadline", Json.str (units t.deadline))] =
        some (Json.str (units t.summary)) := rfl
  have k3 : lookupMember (units "state") [(units "title", Json.str (units t.title)),
      (units "summary", Json.str (units t.summary)),
      (units "state", Json.str (units t.state)),
      (units "deadline", Json.str (units t.deadline))] = some (Json.str (units t.state)) := rfl
  have k4 : lookupMember (units "deadline") [(units "title", Json.str (units t.title)),
      (units "summary", Json.str (units t.summary)),
      (units "state", Json.str (units t.state)),
      (units "deadline", Json.str (units t.deadline))] =
        some (Json.str (units t.deadline)) := rfl
  unfold taskJson Json.asTask
  simp only [hall, if_true, k1, k2, k3, k4, Option.some_bind, asString_units]

theorem asTaskList_map_taskJson (ts : List TaskRecord) :
    asTaskList (ts.map taskJson) = some ts := by
  induction ts with
  | nil => rfl
  | cons t ts ih => simp only [List.map_cons, asTaskList, asTask_taskJson, ih]

end JsonRoundTrip

section JsonParseStringify

theorem skipWs_cons_of_not_ws (c : Char) (r : List Char) (h : isWs c = false) :
    skipWs (c :: r) = c :: r := by
  simp [skipWs, h]

/-- A quoted string in value position parses to its code units. -/
theorem parseValue_quoted (n : Nat) (s : String) (rest : List Char) :
    parseValue (n + 1) (quoteJSONString s ++ rest) = .ok (.str (units s)) rest := by
  have hq : isWs chQuote = false := by decide
  unfold quoteJSONString
  rw [List.cons_append, parseValue, skipWs_cons_of_not_ws _ _ hq]
  simp only [if_true, List.append_assoc, List.singleton_append]
  rw [parseStringBody_quoted]
  simp [units]

/-- One `"key":"value",` member of an object. -/
theorem parseMembers_step (n : Nat) (acc : List (List Nat × Json)) (k v : String)
    (tail : List Char) :
    parseMembers (n + 2) acc
        (quoteJSONString k ++ [':'] ++ quoteJSONString v ++ [','] ++ tail) =
      parseMembers (n + 1) (acc ++ [(units k, .str (units v))]) tail := by
  have hq : isWs chQuote = false := by decide
  have hc : isWs ':' = false := by decide
  have hm : isWs ',' = false := by decide
  have e1 : quoteJSONString k ++ [':'] ++ quoteJSONString v ++ [','] ++ tail =
      chQuote :: (k.data.flatMap quoteChar ++
        chQuote :: (':' :: (quoteJSONString v ++ (',' :: tail)))) := by
    simp [quoteJSONString]
  rw [e1, parseMembers, skipWs_cons_of_not_ws _ _ hq]
  simp only [if_true]
  rw [parseStringBody_quoted]
  simp only [List.nil_append]
  rw [skipWs_cons_of_not_ws _ _ hc]
  simp only [if_true]
  rw [parseValue_quoted]
  simp only []
  rw [skipWs_cons_of_not_ws _ _ hm]
  simp only [if_true]
  rfl

/-- The last `"key":"value"` member of an object and the closing brace. -/
theorem parseMembers_last (n : Nat) (acc : List (List Nat × Json)) (k v : String)
    (tail : List Char) :
    parseMembers (n + 2) acc
        (quoteJSONString k ++ [':'] ++ quoteJSONString v ++ [chRBrace] ++ tail) =
      .ok (.obj (acc ++ [(units k, .str (units v))])) tail := by
  have hq : isWs chQuote = false := by decide
  have hc : isWs ':' = false := by decide
  have hm : isWs chRBrace = false := by decide
  have hne : chRBrace ≠ ',' := by decide
  have e1 : quoteJSONString k ++ [':'] ++ quoteJSONString v ++ [chRBrace] ++ tail =
      chQuote :: (k.data.flatMap quoteChar ++
        chQuote :: (':' :: (quoteJSONString v ++ (chRBrace :: tail)))) := by
    simp [quoteJSONString]
  rw [e1, parseMembers, skipWs_cons_of_not_ws _ _ hq]
  simp only [if_true]
  rw [parseStringBody_quoted]
  simp only [List.nil_append]
  rw [skipWs_cons_of_not_ws _ _ hc]
  simp only [if_true]
  rw [parseValue_quoted]
  simp only []
  rw [skipWs_cons_of_not_ws _ _ hm]
  simp only [hne, if_false, if_true]
  rfl

/-- The text of a task object parses to the object it was written from. -/
theorem parseValue_stringifyTask (n : Nat) (t : TaskRecord) (rest : List Char) :
    parseValue (n + 6) (stringifyTask t ++ rest) = .ok (taskJson t) rest := by
  have hb : isWs chLBrace = false := by decide
  have hq : isWs chQuote = false := by decide
  have h1 : chLBrace ≠ chQuote := by decide
  have h2 : chLBrace ≠ '[' := by decide
  have h3 : chQuote ≠ chRBrace := by decide
  have e1 : stringifyTask t ++ rest =
      chLBrace :: (quoteJSONString "title" ++ [':'] ++ quoteJSONString t.title ++ [','] ++
        (quoteJSONString "summary" ++ [':'] ++ quoteJSONString t.summary ++ [','] ++
          (quoteJSONString "state" ++ [':'] ++ quoteJSONString t.state ++ [','] ++
            (quoteJSONString "deadline" ++ [':'] ++ quoteJSONString t.deadline ++
              [chRBrace] ++ rest)))) := by
    simp [stringifyTask]
  have e2 : ∀ tail, quoteJSONString "title" ++ [':'] ++ quoteJSONString t.title ++ [','] ++
      tail = chQuote :: (("title".data.flatMap quoteChar ++ [chQuote]) ++ [':'] ++
        quoteJSONString t.title ++ [','] ++ tail) := by
    intro tail
    simp [quoteJSONString]
  rw [e1, parseValue, skipWs_cons_of_not_ws _ _ hb]
  simp only [h1, h2, if_false, if_true]
  rw [e2, skipWs_cons_of_not_ws _ _ hq]
  simp only [h3, if_false]
  rw [← e2, parseMembers_step, parseMembers_step, parseMembers_step, parseMembers_last]
  rfl

end JsonParseStringify

section JsonArray

theorem stringifyElements_cons_cons (t t' : TaskRecord) (ts : List TaskRecord) :
    stringifyElements (t :: t' :: ts) =
      stringifyTask t ++ [','] ++ stringifyElements (t' :: ts) := by
  simp [stringifyElements]

/-- The elements of a non-empty array of task objects, up to the closing bracket. -/
theorem parseElements_stringifyElements (n : Nat) (t : TaskRecord) (ts : List TaskRecord)
    (acc : List Json) (rest : List Char) :
    parseElements (n + ts.length + 7) acc (stringifyElements (t :: ts) ++ ([']'] ++ rest)) =
      .ok (.arr (acc ++ (t :: ts).map taskJson)) rest := by
  have hk : isWs ']' = false := by decide
  have hm : isWs ',' = false := by decide
  have hne : (']' : Char) ≠ ',' := by decide
  induction ts generalizing t acc with
  | nil =>
    have e : stringifyElements [t] ++ ([']'] ++ rest) = stringifyTask t ++ (']' :: rest) := by
      simp [stringifyElements]
    rw [e]
    show parseElements ((n + 6) + 1) acc _ = _
    rw [parseElements, parseValue_stringifyTask]
    simp only []
    rw [skipWs_cons_of_not_ws _ _ hk]
    simp [hne]
  | cons t' ts ih =>
    have e : stringifyElements (t :: t' :: ts) ++ ([']'] ++ rest) =
        stringifyTask t ++ (',' :: (stringifyElements (t' :: ts) ++ ([']'] ++ rest))) := by
      rw [stringifyElements_cons_cons]
      simp
    rw [e]
    show parseElements (((n + ts.length + 1) + 6) + 1) acc _ = _
    rw [parseElements, parseValue_stringifyTask]
    simp only []
    rw [skipWs_cons_of_not_ws _ _ hm]
    simp only [if_true]
    have hf : n + ts.length + 1 + 6 = n + ts.length + 7 := by omega
    rw [hf, ih]
    simp

theorem length_stringifyTask (t : TaskRecord) : 2 ≤ (stringifyTask t).length := by
  simp [stringifyTask]
  omega

theorem length_stringifyElements (ts : List TaskRecord) :
    2 * ts.length ≤ (stringifyElements ts).length := by
  induction ts with
  | nil => simp
  | cons t ts ih =>
    cases ts with
    | nil =>
      have := length_stringifyTask t
      simpa [stringifyElements] using this
    | cons t' ts =>
      have := length_stringifyTask t
      rw [stringifyElements_cons_cons]
      simp only [List.length_append, List.length_cons, List.length_nil] at ih ⊢
      omega

theorem stringifyTask_head (t : TaskRecord) :
    ∃ tail, stringifyTask t = chLBrace :: tail := by
  unfold stringifyTask
  simp only [List.append_assoc, List.singleton_append]
  exact ⟨_, rfl⟩

theorem stringifyElements_head (t : TaskRecord) (ts : List TaskRecord) :
    ∃ tail, stringifyElements (t :: ts) = chLBrace :: tail := by
  obtain ⟨tl, htl⟩ := stringifyTask_head t
  cases ts with
  | nil => exact ⟨tl, by simp [stringifyElements, htl]⟩
  | cons t' ts =>
    rw [stringifyElements_cons_cons, htl]
    exact ⟨_, rfl⟩

/-- `JSON.parse` of `JSON.stringify` of a sequence of task records is the array of the
corresponding objects. -/
theorem jsonParse_jsonStringify (ts : List TaskRecord) :
    jsonParse (jsonStringify ts) = .ok (.arr (ts.map taskJson)) [] := by
  cases ts with
  | nil => rfl
  | cons t ts =>
    have hb : isWs '[' = false := by decide
    have hbr : isWs chLBrace = false := by decide
    have h1 : ('[' : Char) ≠ chQuote := by decide
    have h2 : chLBrace ≠ ']' := by decide
    obtain ⟨tail, htail⟩ := stringifyElements_head t ts
    have hlen := length_stringifyElements (t :: ts)
    have hdata : (jsonStringify (t :: ts)).data =
        '[' :: (stringifyElements (t :: ts) ++ [']']) := by
      simp [jsonStringify]
    obtain ⟨n, hn⟩ : ∃ n, 2 * (jsonStringify (t :: ts)).data.length + 1 =
        (n + ts.length + 7) + 1 := by
      refine ⟨2 * (jsonStringify (t :: ts)).data.length - ts.length - 7, ?_⟩
      rw [hdata]
      simp only [List.length_cons, List.length_append, List.length_nil] at hlen ⊢
      omega
    unfold jsonParse
    rw [hn, hdata, parseValue, skipWs_cons_of_not_ws _ _ hb]
    simp only [h1, if_false, if_true]
    rw [htail, List.cons_append, skipWs_cons_of_not_ws _ _ hbr]
    simp only [h2, if_false]
    rw [← List.cons_append, ← htail]
    have := parseElements_stringifyElements n t ts [] []
    simp only [List.append_nil, List.nil_append] at this
    rw [this]
    simp [skipWs]

end JsonArray

/-! ## The recursion budget of `jsonParse` is never exhausted -/

section ParserBudget

theorem skipWs_length_le (cs : List Char) : (skipWs cs).length ≤ cs.length := by
  induction cs with
  | nil => simp [skipWs]
  | cons c cs ih =>
    unfold skipWs
    split
    · simp only [List.length_cons]
      omega
    · exact le_refl _

theorem parseStringBody_rest (m : StrMode) (acc : List Nat) (cs : List Char)
    (u : List Nat) (r : List Char) (h : parseStringBody m acc cs = .ok u r) :
    r.length < cs.length := by
  induction cs generalizing m acc with
  | nil => cases m <;> simp [parseStringBody] at h
  | cons c cs ih =>
    cases m with
    | plain =>
      rw [parseStringBody] at h
      split_ifs at h with h1 h2 h3
      · injection h with _ hr
        subst hr
        simp
      · have := ih _ _ h
        simp only [List.length_cons]
        omega
      · have := ih _ _ h
        simp only [List.length_cons]
        omega
    | escape =>
      rw [parseStringBody] at h
      split_ifs at h with h1
      · have := ih _ _ h
        simp only [List.length_cons]
        omega
      · split at h
        · have := ih _ _ h
          simp only [List.length_cons]
          omega
        · exact absurd h (by simp)
    | hex n v =>
      rw [parseStringBody] at h
      split at h
      · exact absurd h (by simp)
      · split_ifs at h with h1
        · have := ih _ _ h
          simp only [List.length_cons]
          omega
        · have := ih _ _ h
          simp only [List.length_cons]
          omega

theorem parseStringBody_budget (m : StrMode) (acc : List Nat) (cs : List Char) :
    parseStringBody m acc cs ≠ .outOfFuel := by
  induction cs generalizing m acc with
  | nil => cases m <;> simp [parseStringBody]
  | cons c cs ih =>
    cases m with
    | plain =>
      rw [parseStringBody]
      split_ifs with h1 h2 h3
      · simp
      · exact ih _ _
      · simp
      · exact ih _ _
    | escape =>
      rw [parseStringBody]
      split_ifs with h1
      · exact ih _ _
      · split
        · exact ih _ _
        · simp
    | hex n v =>
      rw [parseStringBody]
      split
      · simp
      · split_ifs with h1
        · exact ih _ _
        · exact ih _ _

theorem spanDigits_length_le (cs : List Char) : (spanDigits cs).2.length ≤ cs.length := by
  induction cs with
  | nil => simp [spanDigits]
  | cons c cs ih =>
    unfold spanDigits
    split
    · simp only [List.length_cons]
      omega
    · exact le_refl _

theorem dropLiteral_length_le (lit cs r : List Char) (h : dropLiteral lit cs = some r) :
    r.length ≤ cs.length := by
  induction lit generalizing cs with
  | nil =>
    simp only [dropLiteral, Option.some.injEq] at h
    rw [h]
  | cons l lit ih =>
    cases cs with
    | nil => simp [dropLiteral] at h
    | cons c cs =>
      rw [dropLiteral] at h
      split_ifs at h with h1
      have := ih cs h
      simp only [List.length_cons]
      omega

end ParserBudget

section NumberBudget

theorem parseFraction_spec (cs : List Char) :
    parseFraction cs ≠ .outOfFuel ∧
    ∀ f r, parseFraction cs = .ok f r → r.length ≤ cs.length := by
  unfold parseFraction
  split
  · rename_i c r
    split_ifs with h1
    · have hl := spanDigits_length_le r
      split
      · simp
      · rename_i d ds r' he
        rw [he] at hl
        refine ⟨by simp, ?_⟩
        intro f r0 h
        injection h with _ hr
        subst hr
        simp only [List.length_cons]
        simp only at hl
        omega
    · refine ⟨by simp, ?_⟩
      intro f r0 h
      injection h with _ hr
      subst hr
      exact le_refl _
  · refine ⟨by simp, ?_⟩
    intro f r0 h
    injection h with _ hr
    subst hr
    exact le_refl _

theorem parseExponentDigits_spec (cs : List Char) :
    parseExponentDigits cs ≠ .outOfFuel ∧
    ∀ f r, parseExponentDigits cs = .ok f r → r.length ≤ cs.length := by
  unfold parseExponentDigits
  have hl := spanDigits_length_le cs
  split
  · simp
  · rename_i d ds r' he
    rw [he] at hl
    refine ⟨by simp, ?_⟩
    intro f r0 h
    injection h with _ hr
    subst hr
    exact hl

theorem parseExponent_spec (cs : List Char) :
    parseExponent cs ≠ .outOfFuel ∧
    ∀ f r, parseExponent cs = .ok f r → r.length ≤ cs.length := by
  unfold parseExponent
  split
  · rename_i c r
    split_ifs with h1
    · split
      · rename_i s r'
        split_ifs with h2
        · have hs := parseExponentDigits_spec r'
          split
          · rename_i ds r'' he
            refine ⟨by simp, ?_⟩
            intro f r0 h
            injection h with _ hr
            subst hr
            have := hs.2 _ _ he
            simp only [List.length_cons]
            omega
          · simp
          · rename_i he
            exact absurd he hs.1
        · have hs := parseExponentDigits_spec (s :: r')
          split
          · rename_i ds r'' he
            refine ⟨by simp, ?_⟩
            intro f r0 h
            injection h with _ hr
            subst hr
            have := hs.2 _ _ he
            simp only [List.length_cons] at this ⊢
            omega
          · simp
          · rename_i he
            exact absurd he hs.1
      · simp
    · refine ⟨by simp, ?_⟩
      intro f r0 h
      injection h with _ hr
      subst hr
      exact le_refl _
  · refine ⟨by simp, ?_⟩
    intro f r0 h
    injection h with _ hr
    subst hr
    exact le_refl _

theorem parseInteger_spec (cs : List Char) :
    parseInteger cs ≠ .outOfFuel ∧
    ∀ f r, parseInteger cs = .ok f r → r.length < cs.length := by
  unfold parseInteger
  split
  · rename_i c r
    split_ifs with h1 h2
    · refine ⟨by simp, ?_⟩
      intro f r0 h
      injection h with _ hr
      subst hr
      simp
    · refine ⟨by simp, ?_⟩
      intro f r0 h
      injection h with _ hr
      subst hr
      have := spanDigits_length_le r
      simp only [List.length_cons]
      omega
    · simp
  · simp

theorem parseUnsigned_spec (cs : List Char) :
    parseUnsigned cs ≠ .outOfFuel ∧
    ∀ f r, parseUnsigned cs = .ok f r → r.length < cs.length := by
  unfold parseUnsigned
  have hi := parseInteger_spec cs
  split
  · rename_i i r hei
    have hf := parseFraction_spec r
    split
    · rename_i fr r' hef
      have hx := parseExponent_spec r'
      split
      · rename_i e r'' hee
        refine ⟨by simp, ?_⟩
        intro f r0 h
        injection h with _ hr
        subst hr
        have a1 := hi.2 _ _ hei
        have a2 := hf.2 _ _ hef
        have a3 := hx.2 _ _ hee
        omega
      · simp
      · rename_i he
        exact absurd he hx.1
    · simp
    · rename_i he
      exact absurd he hf.1
  · simp
  · rename_i he
    exact absurd he hi.1

theorem parseNumber_spec (cs : List Char) :
    parseNumber cs ≠ .outOfFuel ∧
    ∀ f r, parseNumber cs = .ok f r → r.length < cs.length := by
  unfold parseNumber
  split
  · rename_i c r
    split_ifs with h1
    · have hu := parseUnsigned_spec r
      split
      · rename_i n r' he
        refine ⟨by simp, ?_⟩
        intro f r0 h
        injection h with _ hr
        subst hr
        have := hu.2 _ _ he
        simp only [List.length_cons]
        omega
      · simp
      · rename_i he
        exact absurd he hu.1
    · exact parseUnsigned_spec (c :: r)
  · simp

end NumberBudget

section ValueBudget

/-- Every successful parsing function consumes input. -/
theorem parse_progress (f : Nat) :
    (∀ cs v r, parseValue f cs = .ok v r → r.length < cs.length) ∧
    (∀ acc cs v r, parseElements f acc cs = .ok v r → r.length < cs.length) ∧
    (∀ acc cs v r, parseMembers f acc cs = .ok v r → r.length < cs.length) := by
  induction f with
  | zero =>
    refine ⟨?_, ?_, ?_⟩
    · intro cs v r h
      simp [parseValue] at h
    · intro acc cs v r h
      simp [parseElements] at h
    · intro acc cs v r h
      simp [parseMembers] at h
  | succ f ih =>
    obtain ⟨ihv, ihe, ihm⟩ := ih
    refine ⟨?_, ?_, ?_⟩
    · intro cs v r h
      have hws := skipWs_length_le cs
      rw [parseValue] at h
      split at h
      · exact absurd h (by simp)
      · rename_i c r1 hsk
        rw [hsk] at hws
        simp only [List.length_cons] at hws
        split_ifs at h with h1 h2 h3 h4 h5 h6
        · split at h
          · rename_i u r' he
            injection h with _ hr
            subst hr
            have := parseStringBody_rest _ _ _ _ _ he
            omega
          · exact absurd h (by simp)
          · exact absurd h (by simp)
        · have hws2 := skipWs_length_le r1
          split at h
          · exact absurd h (by simp)
          · rename_i d r' hsk2
            rw [hsk2] at hws2
            simp only [List.length_cons] at hws2
            split_ifs at h with h7
            · injection h with _ hr
              subst hr
              omega
            · have := ihe _ _ _ _ h
              simp only [List.length_cons] at this
              omega
        · have hws2 := skipWs_length_le r1
          split at h
          · exact absurd h (by simp)
          · rename_i d r' hsk2
            rw [hsk2] at hws2
            simp only [List.length_cons] at hws2
            split_ifs at h with h7
            · injection h with _ hr
              subst hr
              omega
            · have := ihm _ _ _ _ h
              simp only [List.length_cons] at this
              omega
        · split at h
          · rename_i r' he
            injection h with _ hr
            subst hr
            have := dropLiteral_length_le _ _ _ he
            omega
          · exact absurd h (by simp)
        · split at h
          · rename_i r' he
            injection h with _ hr
            subst hr
            have := dropLiteral_length_le _ _ _ he
            omega
          · exact absurd h (by simp)
        · split at h
          · rename_i r' he
            injection h with _ hr
            subst hr
            have := dropLiteral_length_le _ _ _ he
            omega
          · exact absurd h (by simp)
        · split at h
          · rename_i n r' he
            injection h with _ hr
            subst hr
            have := (parseNumber_spec (c :: r1)).2 _ _ he
            simp only [List.length_cons] at this
            omega
          · exact absurd h (by simp)
          · exact absurd h (by simp)
    · intro acc cs v r h
      rw [parseElements] at h
      split at h
      · rename_i w r1 he
        have h1 := ihv _ _ _ he
        have hws := skipWs_length_le r1
        split at h
        · exact absurd h (by simp)
        · rename_i d r' hsk
          rw [hsk] at hws
          simp only [List.length_cons] at hws
          split_ifs at h with h2 h3
          · have := ihe _ _ _ _ h
            omega
          · injection h with _ hr
            subst hr
            omega
      · exact absurd h (by simp)
      · exact absurd h (by simp)
    · intro acc cs v r h
      have hws := skipWs_length_le cs
      rw [parseMembers] at h
      split at h
      · exact absurd h (by simp)
      · rename_i c r0 hsk
        rw [hsk] at hws
        simp only [List.length_cons] at hws
        split_ifs at h with h1
        split at h
        · rename_i k r1 hk
          have a1 := parseStringBody_rest _ _ _ _ _ hk
          have hws1 := skipWs_length_le r1
          split at h
          · exact absurd h (by simp)
          · rename_i d r2 hsk1
            rw [hsk1] at hws1
            simp only [List.length_cons] at hws1
            split_ifs at h with h2
            split at h
            · rename_i w r3 hv
              have a2 := ihv _ _ _ hv
              have hws3 := skipWs_length_le r3
              split at h
              · exact absurd h (by simp)
              · rename_i e r4 hsk3
                rw [hsk3] at hws3
                simp only [List.length_cons] at hws3
                split_ifs at h with h3 h4
                · have := ihm _ _ _ _ h
                  omega
                · injection h with _ hr
                  subst hr
                  omega
            · exact absurd h (by simp)
            · exact absurd h (by simp)
        · exact absurd h (by simp)
        · exact absurd h (by simp)

end ValueBudget

section ValueBudgetBound

/-- A budget of twice the input length (plus one or two) is never exhausted. -/
theorem parse_budget (f : Nat) :
    (∀ cs, 2 * cs.length + 1 ≤ f → parseValue f cs ≠ .outOfFuel) ∧
    (∀ acc cs, 2 * cs.length + 2 ≤ f → parseElements f acc cs ≠ .outOfFuel) ∧
    (∀ acc cs, 2 * cs.length + 2 ≤ f → parseMembers f acc cs ≠ .outOfFuel) := by
  induction f with
  | zero =>
    refine ⟨?_, ?_, ?_⟩
    · intro cs h
      omega
    · intro acc cs h
      omega
    · intro acc cs h
      omega
  | succ f ih =>
    obtain ⟨ihv, ihe, ihm⟩ := ih
    obtain ⟨pv, pe, pm⟩ := parse_progress f
    refine ⟨?_, ?_, ?_⟩
    · intro cs hf
      have hws := skipWs_length_le cs
      rw [parseValue]
      split
      · simp
      · rename_i c r1 hsk
        rw [hsk] at hws
        simp only [List.length_cons] at hws
        split_ifs with h1 h2 h3 h4 h5 h6
        · split
          · simp
          · simp
          · rename_i he
            exact absurd he (parseStringBody_budget _ _ _)
        · have hws2 := skipWs_length_le r1
          split
          · simp
          · rename_i d r' hsk2
            rw [hsk2] at hws2
            simp only [List.length_cons] at hws2
            split_ifs with h7
            · simp
            · apply ihe
              simp only [List.length_cons]
              omega
        · have hws2 := skipWs_length_le r1
          split
          · simp
          · rename_i d r' hsk2
            rw [hsk2] at hws2
            simp only [List.length_cons] at hws2
            split_ifs with h7
            · simp
            · apply ihm
              simp only [List.length_cons]
              omega
        · split <;> simp
        · split <;> simp
        · split <;> simp
        · split
          · simp
          · simp
          · rename_i he
            exact absurd he (parseNumber_spec _).1
    · intro acc cs hf
      rw [parseElements]
      split
      · rename_i w r1 he
        have h1 := pv _ _ _ he
        have hws := skipWs_length_le r1
        split
        · simp
        · rename_i d r' hsk
          rw [hsk] at hws
          simp only [List.length_cons] at hws
          split_ifs with h2 h3
          · apply ihe
            omega
          · simp
          · simp
      · simp
      · rename_i he
        exact absurd he (ihv _ (by omega))
    · intro acc cs hf
      have hws := skipWs_length_le cs
      rw [parseMembers]
      split
      · simp
      · rename_i c r0 hsk
        rw [hsk] at hws
        simp only [List.length_cons] at hws
        split_ifs with h1
        · split
          · rename_i k r1 hk
            have a1 := parseStringBody_rest _ _ _ _ _ hk
            have hws1 := skipWs_length_le r1
            split
            · simp
            · rename_i d r2 hsk1
              rw [hsk1] at hws1
              simp only [List.length_cons] at hws1
              split_ifs with h2
              · split
                · rename_i w r3 hv
                  have a2 := pv _ _ _ hv
                  have hws3 := skipWs_length_le r3
                  split
                  · simp
                  · rename_i e r4 hsk3
                    rw [hsk3] at hws3
                    simp only [List.length_cons] at hws3
                    split_ifs with h3 h4
                    · apply ihm
                      omega
                    · simp
                    · simp
                · simp
                · rename_i he
                  exact absurd he (ihv _ (by omega))
              · simp
          · simp
          · rename_i he
            exact absurd he (parseStringBody_budget _ _ _)
        · simp

/-- `jsonParse` either returns a value or reports a `SyntaxError`. -/
theorem jsonParse_budget (s : String) : jsonParse s ≠ .outOfFuel := by
  unfold jsonParse
  split
  · split_ifs <;> simp
  · simp
  · rename_i he
    exact absurd he ((parse_budget _).1 _ (le_refl _))

/-- `retrieveTasksFromStorage` never ends for lack of parser budget. -/
theorem retrieveTasksFromStorage_budget (st : AppState) :
    retrieveTasksFromStorage st ≠ .error .outOfFuel := by
  unfold retrieveTasksFromStorage
  split
  · simp
  · split_ifs
    · split
      · split <;> simp
      · simp
      · rename_i he
        exact absurd he (jsonParse_budget _)
    · simp

end ValueBudgetBound

/-! ## Claims on the view derivation -/

section ViewClaims

/-- C2: over deadlines that are empty or `YYYY-MM-DD` dates, `deriveDisplayedTasks` with
`sortByDueDate = true` returns a permutation of the outcome of the filter and highlight
steps, in ascending calendar order with the undated tasks last, in which the tasks that
share a deadline (or have none) keep the order they had before the sort. -/
theorem deadline_sort_stable_ascending (taskList : List TaskRecord)
    (stateFilter highlightState : Option String)
    (hwf : ∀ t ∈ taskList, wellFormedDeadline t.deadline = true) :
    (deriveDisplayedTasks taskList stateFilter highlightState true).Perm
        (deriveDisplayedTasks taskList stateFilter highlightState false) ∧
    (deriveDisplayedTasks taskList stateFilter highlightState true).Pairwise
        (fun a b => deadlineLE a b = true) ∧
    ∀ d : String,
      (deriveDisplayedTasks taskList stateFilter highlightState true).filter
          (fun t => t.deadline = d) =
        (deriveDisplayedTasks taskList stateFilter highlightState false).filter
          (fun t => t.deadline = d) := by
  have hsub : ∀ t ∈ highlightStep highlightState (filterStep stateFilter taskList),
      wellFormedDeadline t.deadline = true := fun t ht =>
    hwf t (filterStep_subset stateFilter taskList t
      ((highlightStep_perm highlightState _).mem_iff.mp ht))
  simp only [deriveDisplayedTasks, deadlineStep, if_true, Bool.false_eq_true, if_false]
  exact ⟨arraySort_perm _ _, pairwise_deadlineLE_arraySort _ hsub,
    fun d => filter_deadline_arraySort _ d⟩

/-- Witness of C2 on the deadlines `[none, 2024-03-01, 2024-01-15, none]`. -/
theorem deadline_sort_stable_ascending_witness :
    (∀ t ∈ ([⟨"a", "", "Done", ""⟩, ⟨"b", "", "Done", "2024-03-01"⟩,
        ⟨"c", "", "Done", "2024-01-15"⟩, ⟨"d", "", "Done", ""⟩] : List TaskRecord),
      wellFormedDeadline t.deadline = true) ∧
    deriveDisplayedTasks [⟨"a", "", "Done", ""⟩, ⟨"b", "", "Done", "2024-03-01"⟩,
        ⟨"c", "", "Done", "2024-01-15"⟩, ⟨"d", "", "Done", ""⟩] none none true =
      [⟨"c", "", "Done", "2024-01-15"⟩, ⟨"b", "", "Done", "2024-03-01"⟩,
        ⟨"a", "", "Done", ""⟩, ⟨"d", "", "Done", ""⟩] ∧
    (deriveDisplayedTasks [⟨"a", "", "Done", ""⟩, ⟨"b", "", "Done", "2024-03-01"⟩,
        ⟨"c", "", "Done", "2024-01-15"⟩, ⟨"d", "", "Done", ""⟩] none none true).Pairwise
      (fun a b => deadlineLE a b = true) :=
  ⟨by decide, by decide,
    (deadline_sort_stable_ascending [⟨"a", "", "Done", ""⟩, ⟨"b", "", "Done", "2024-03-01"⟩,
        ⟨"c", "", "Done", "2024-01-15"⟩, ⟨"d", "", "Done", ""⟩] none none (by decide)).2.1⟩

/-- C3: with `sortByDueDate = false` and a highlight state `H` that is set,
`deriveDisplayedTasks` returns the stable partition by `H` of the filtered sequence, for
every filter setting: under a set filter `S` the stored tasks of state `S`, under no
filter (`null` or the falsy `""`) all stored tasks; first those whose state is `H`, in
their original order, then those whose state is not `H`, in their original order.  With
no highlight the filtered sequence itself is returned. -/
theorem highlight_stable_partition (taskList : List TaskRecord) (H : String) (hH : H ≠ "") :
    (∀ S : String, S ≠ "" →
      deriveDisplayedTasks taskList (some S) (some H) false =
        (taskList.filter (fun t => t.state = S)).filter (fun t => t.state = H) ++
        (taskList.filter (fun t => t.state = S)).filter (fun t => !decide (t.state = H))) ∧
    deriveDisplayedTasks taskList none (some H) false =
      taskList.filter (fun t => t.state = H) ++
      taskList.filter (fun t => !decide (t.state = H)) ∧
    deriveDisplayedTasks taskList (some "") (some H) false =
      taskList.filter (fun t => t.state = H) ++
      taskList.filter (fun t => !decide (t.state = H)) ∧
    (∀ S : String, S ≠ "" →
      deriveDisplayedTasks taskList (some S) none false =
        taskList.filter (fun t => t.state = S)) ∧
    deriveDisplayedTasks taskList none none false = taskList := by
  have hhl : ∀ l : List TaskRecord,
      highlightStep (some H) l = arraySort (highlightCompare H) l := by
    intro l
    simp [highlightStep, truthy, hH]
  have hfs : ∀ S : String, S ≠ "" →
      filterStep (some S) taskList = taskList.filter (fun t => t.state = S) := by
    intro S hS
    simp [filterStep, truthy, hS]
  have hfn : filterStep none taskList = taskList := rfl
  have hfe : filterStep (some "") taskList = taskList := by simp [filterStep, truthy]
  have hhn : ∀ l : List TaskRecord, highlightStep none l = l := fun _ => rfl
  refine ⟨?_, ?_, ?_, ?_, ?_⟩
  · intro S hS
    simp only [deriveDisplayedTasks, deadlineStep, Bool.false_eq_true, if_false]
    rw [hfs S hS, hhl]
    exact arraySort_highlightCompare H _
  · simp only [deriveDisplayedTasks, deadlineStep, Bool.false_eq_true, if_false]
    rw [hfn, hhl]
    exact arraySort_highlightCompare H _
  · simp only [deriveDisplayedTasks, deadlineStep, Bool.false_eq_true, if_false]
    rw [hfe, hhl]
    exact arraySort_highlightCompare H _
  · intro S hS
    simp only [deriveDisplayedTasks, deadlineStep, Bool.false_eq_true, if_false]
    rw [hfs S hS, hhn]
  · simp only [deriveDisplayedTasks, deadlineStep, Bool.false_eq_true, if_false]
    rw [hfn, hhn]

/-- Witness of C3: `[A(Done), B(Not done), C(Done)]` with `H = Done` and no filter gives
`[A, C, B]`; `[A(Done), B(Not done), C(Doing right now), D(Not done), E(Done)]` with
`H = Done` under the falsy filter `""` gives `[A, E, B, C, D]`; and
`[A(Done, x), B(Not done), C(Done, y), D(Done, x)]` with the filter `Done` shows
`[A, C, D]`. -/
theorem highlight_stable_partition_witness :
    deriveDisplayedTasks [⟨"A", "", "Done", ""⟩, ⟨"B", "", "Not done", ""⟩,
        ⟨"C", "", "Done", ""⟩] none (some "Done") false =
      [⟨"A", "", "Done", ""⟩, ⟨"C", "", "Done", ""⟩, ⟨"B", "", "Not done", ""⟩] ∧
    deriveDisplayedTasks [⟨"A", "", "Done", ""⟩, ⟨"B", "", "Not done", ""⟩,
        ⟨"C", "", "Doing right now", ""⟩, ⟨"D", "", "Not done", ""⟩,
        ⟨"E", "", "Done", ""⟩] (some "") (some "Done") false =
      [⟨"A", "", "Done", ""⟩, ⟨"E", "", "Done", ""⟩, ⟨"B", "", "Not done", ""⟩,
        ⟨"C", "", "Doing right now", ""⟩, ⟨"D", "", "Not done", ""⟩] ∧
    deriveDisplayedTasks [⟨"A", "x", "Done", ""⟩, ⟨"B", "", "Not done", ""⟩,
        ⟨"C", "y", "Done", ""⟩, ⟨"D", "x", "Done", ""⟩] (some "Done") (some "Not done")
        false =
      [⟨"A", "x", "Done", ""⟩, ⟨"C", "y", "Done", ""⟩, ⟨"D", "x", "Done", ""⟩] :=
  ⟨(highlight_stable_partition [⟨"A", "", "Done", ""⟩, ⟨"B", "", "Not done", ""⟩,
      ⟨"C", "", "Done", ""⟩] "Done" (by decide)).2.1.trans (by decide),
    (highlight_stable_partition [⟨"A", "", "Done", ""⟩, ⟨"B", "", "Not done", ""⟩,
      ⟨"C", "", "Doing right now", ""⟩, ⟨"D", "", "Not done", ""⟩,
      ⟨"E", "", "Done", ""⟩] "Done" (by decide)).2.2.1.trans (by decide),
    ((highlight_stable_partition [⟨"A", "x", "Done", ""⟩, ⟨"B", "", "Not done", ""⟩,
      ⟨"C", "y", "Done", ""⟩, ⟨"D", "x", "Done", ""⟩] "Not done" (by decide)).1 "Done"
        (by decide)).trans (by decide)⟩

/-- C4 as stated fails: with the deadline sort on, the tasks selected by the filter are
not in their original relative order. -/
theorem filter_order_counterexample :
    deriveDisplayedTasks [⟨"A", "", "Done", "2024-03-01"⟩, ⟨"B", "", "Done", "2024-01-15"⟩]
        (some "Done") none true ≠
      ([⟨"A", "", "Done", "2024-03-01"⟩, ⟨"B", "", "Done", "2024-01-15"⟩] :
        List TaskRecord).filter (fun t => t.state = "Done") := by
  decide

/-- C4 (amended): with `stateFilter = S` set, `deriveDisplayedTasks` returns exactly the
stored tasks whose state is `S`: for every highlight and sort setting a permutation of
that sublist; with `sortByDueDate` off the sublist itself, in the original order; with
`sortByDueDate` on the stable deadline sort of the sublist, which over well-formed
deadlines is in ascending calendar order with the undated tasks last and keeps the
original order of the tasks that share a deadline. -/
theorem filter_selects_state (taskList : List TaskRecord) (S : String) (hS : S ≠ "")
    (highlightState : Option String) (sortByDueDate : Bool) :
    (deriveDisplayedTasks taskList (some S) highlightState sortByDueDate).Perm
        (taskList.filter (fun t => t.state = S)) ∧
    deriveDisplayedTasks taskList (some S) highlightState false =
      taskList.filter (fun t => t.state = S) ∧
    deriveDisplayedTasks taskList (some S) highlightState true =
      arraySort deadlineCompare (taskList.filter (fun t => t.state = S)) ∧
    ((∀ t ∈ taskList, wellFormedDeadline t.deadline = true) →
      (deriveDisplayedTasks taskList (some S) highlightState true).Pairwise
        (fun a b => deadlineLE a b = true)) ∧
    (∀ d : String,
      (deriveDisplayedTasks taskList (some S) highlightState true).filter
          (fun t => t.deadline = d) =
        taskList.filter (fun t => decide (t.deadline = d) && decide (t.state = S))) := by
  have hfs : filterStep (some S) taskList = taskList.filter (fun t => t.state = S) := by
    simp [filterStep, truthy, hS]
  simp only [deriveDisplayedTasks]
  rw [hfs, highlightStep_filter]
  refine ⟨deadlineStep_perm _ _, by simp [deadlineStep], by simp [deadlineStep], ?_, ?_⟩
  · intro hwf
    simp only [deadlineStep, if_true]
    exact pairwise_deadlineLE_arraySort _ (fun t ht => hwf t (List.mem_of_mem_filter ht))
  · intro d
    simp only [deadlineStep, if_true]
    rw [filter_deadline_arraySort, List.filter_filter]

/-- Witness of the amended C4: `[A(Done, 2024-03-01), X(Not done), B(Done, 2024-01-15)]`
under the filter `Done` with the sort on shows `[B, A]`. -/
theorem filter_selects_state_witness :
    (deriveDisplayedTasks [⟨"A", "", "Done", "2024-03-01"⟩, ⟨"X", "", "Not done", ""⟩,
        ⟨"B", "", "Done", "2024-01-15"⟩] (some "Done") (some "Not done") true).Perm
      (([⟨"A", "", "Done", "2024-03-01"⟩, ⟨"X", "", "Not done", ""⟩,
        ⟨"B", "", "Done", "2024-01-15"⟩] : List TaskRecord).filter
          (fun t => t.state = "Done")) ∧
    deriveDisplayedTasks [⟨"A", "", "Done", "2024-03-01"⟩, ⟨"X", "", "Not done", ""⟩,
        ⟨"B", "", "Done", "2024-01-15"⟩] (some "Done") (some "Not done") true =
      [⟨"B", "", "Done", "2024-01-15"⟩, ⟨"A", "", "Done", "2024-03-01"⟩] ∧
    (deriveDisplayedTasks [⟨"A", "", "Done", "2024-03-01"⟩, ⟨"X", "", "Not done", ""⟩,
        ⟨"B", "", "Done", "2024-01-15"⟩] (some "Done") (some "Not done") true).Pairwise
      (fun a b => deadlineLE a b = true) :=
  ⟨(filter_selects_state [⟨"A", "", "Done", "2024-03-01"⟩, ⟨"X", "", "Not done", ""⟩,
      ⟨"B", "", "Done", "2024-01-15"⟩] "Done" (by decide) (some "Not done") true).1,
    (filter_selects_state [⟨"A", "", "Done", "2024-03-01"⟩, ⟨"X", "", "Not done", ""⟩,
      ⟨"B", "", "Done", "2024-01-15"⟩] "Done" (by decide) (some "Not done")
        true).2.2.1.trans (by decide),
    (filter_selects_state [⟨"A", "", "Done", "2024-03-01"⟩, ⟨"X", "", "Not done", ""⟩,
      ⟨"B", "", "Done", "2024-01-15"⟩] "Done" (by decide) (some "Not done")
        true).2.2.2.1 (by decide)⟩

/-- C10: over well-formed deadlines, with a highlight state `H` set and the deadline sort
on, the output is a permutation of the filtered tasks in ascending deadline order (undated
last); the tasks sharing a deadline are those of state `H` in their original order followed
by the others in their original order; and when the displayed deadlines are pairwise
distinct the output is the same for every highlight setting. -/
theorem highlight_breaks_deadline_ties (taskList : List TaskRecord)
    (stateFilter : Option String) (H : String) (hH : H ≠ "")
    (hwf : ∀ t ∈ taskList, wellFormedDeadline t.deadline = true) :
    (deriveDisplayedTasks taskList stateFilter (some H) true).Perm
        (deriveDisplayedTasks taskList stateFilter none false) ∧
    (deriveDisplayedTasks taskList stateFilter (some H) true).Pairwise
        (fun a b => deadlineLE a b = true) ∧
    (∀ d : String,
      (deriveDisplayedTasks taskList stateFilter (some H) true).filter
          (fun t => t.deadline = d) =
        (deriveDisplayedTasks taskList stateFilter none false).filter
            (fun t => decide (t.deadline = d) && decide (t.state = H)) ++
          (deriveDisplayedTasks taskList stateFilter none false).filter
            (fun t => decide (t.deadline = d) && !decide (t.state = H))) ∧
    (((deriveDisplayedTasks taskList stateFilter (some H) true).map
          (fun t => t.deadline)).Nodup →
      ∀ highlightState : Option String,
        deriveDisplayedTasks taskList stateFilter highlightState true =
          deriveDisplayedTasks taskList stateFilter (some H) true) := by
  have hsub : ∀ (h : Option String), ∀ t ∈ highlightStep h (filterStep stateFilter taskList),
      wellFormedDeadline t.deadline = true := fun h t ht =>
    hwf t (filterStep_subset stateFilter taskList t ((highlightStep_perm h _).mem_iff.mp ht))
  simp only [deriveDisplayedTasks, deadlineStep, if_true, Bool.false_eq_true, if_false]
  refine ⟨(arraySort_perm _ _).trans (highlightStep_perm _ _),
    pairwise_deadlineLE_arraySort _ (hsub _), ?_, ?_⟩
  · intro d
    rw [filter_deadline_arraySort, highlightStep_some H hH, arraySort_highlightCompare,
      List.filter_append, List.filter_filter, List.filter_filter]
    rfl
  · intro hnd highlightState
    apply arraySort_deadline_eq_of_perm
    · exact (highlightStep_perm _ _).trans (highlightStep_perm _ _).symm
    · exact hsub _
    · have hp : (arraySort deadlineCompare
          (highlightStep (some H) (filterStep stateFilter taskList))).Perm
          (highlightStep highlightState (filterStep stateFilter taskList)) :=
        (arraySort_perm _ _).trans
          ((highlightStep_perm _ _).trans (highlightStep_perm _ _).symm)
      exact ((hp.map (fun t => t.deadline)).nodup_iff).mp hnd

/-- Witness of C10: two tasks share a deadline, the one of state `Done` comes first
within that deadline, after the task with the earlier deadline. -/
theorem highlight_breaks_deadline_ties_witness :
    deriveDisplayedTasks [⟨"a", "", "Not done", "2024-03-01"⟩, ⟨"b", "", "Done", "2024-03-01"⟩,
        ⟨"c", "", "Not done", "2024-01-15"⟩, ⟨"d", "", "Done", ""⟩] none (some "Done") true =
      [⟨"c", "", "Not done", "2024-01-15"⟩, ⟨"b", "", "Done", "2024-03-01"⟩,
        ⟨"a", "", "Not done", "2024-03-01"⟩, ⟨"d", "", "Done", ""⟩] ∧
    (deriveDisplayedTasks [⟨"a", "", "Not done", "2024-03-01"⟩, ⟨"b", "", "Done", "2024-03-01"⟩,
        ⟨"c", "", "Not done", "2024-01-15"⟩, ⟨"d", "", "Done", ""⟩] none (some "Done")
          true).Pairwise (fun a b => deadlineLE a b = true) :=
  ⟨by decide,
    (highlight_breaks_deadline_ties [⟨"a", "", "Not done", "2024-03-01"⟩,
      ⟨"b", "", "Done", "2024-03-01"⟩, ⟨"c", "", "Not done", "2024-01-15"⟩,
      ⟨"d", "", "Done", ""⟩] none "Done" (by decide) (by decide)).2.1⟩

end ViewClaims

/-! ## Claims on the handlers -/

section HandlerClaims

/-- C1 at a concrete state: the stored list is `[A(Not done), B(Done)]` and the filter
`Done` is on, so the only card shows `B` at displayed index `0`.  The stored element at
index `0` is `A`: `removeTask 0` removes `A` and keeps `B`; `openEditDialog 0` loads the
title of `A` into the form, and after the title is retyped as `B2` `confirmEdits`
overwrites `A` and leaves `B` as it was. -/
theorem displayed_index_hits_other_task :
    tasksToDisplay { initialState none with
        taskList := [⟨"A", "", "Not done", ""⟩, ⟨"B", "", "Done", ""⟩],
        stateFilter := some "Done" } = [⟨"B", "", "Done", ""⟩] ∧
    (removeTask 0 { initialState none with
        taskList := [⟨"A", "", "Not done", ""⟩, ⟨"B", "", "Done", ""⟩],
        stateFilter := some "Done" }).taskList = [⟨"B", "", "Done", ""⟩] ∧
    ((openEditDialog 0 { initialState none with
        taskList := [⟨"A", "", "Not done", ""⟩, ⟨"B", "", "Done", ""⟩],
        stateFilter := some "Done" }).toOption.map (fun s => s.editTitleInput)) = some "A" ∧
    (((openEditDialog 0 { initialState none with
        taskList := [⟨"A", "", "Not done", ""⟩, ⟨"B", "", "Done", ""⟩],
        stateFilter := some "Done" }).bind
          (fun s => confirmEdits { s with editTitleInput := "B2" })).toOption.map
            (fun s => s.taskList)) =
      some [⟨"B2", "", "Not done", ""⟩, ⟨"B", "", "Done", ""⟩] := by
  refine ⟨by decide, by decide, by decide, by decide⟩

/-- C5: with `currentEditIndex = i` valid, `confirmEdits` returns a list of the same
length that agrees with the prior list at every other index and holds at `i` the prior
record with title, summary, state and deadline overwritten by the edit form (a task
record has these four properties only, so the merged record consists of the form
values). -/
theorem confirmEdits_changes_only_index (st : AppState) (i : Nat)
    (hi : i < st.taskList.length) (hc : st.currentEditIndex = some i) :
    ∃ st', confirmEdits st = .ok st' ∧
      st'.taskList.length = st.taskList.length ∧
      (∀ j, j ≠ i → st'.taskList[j]? = st.taskList[j]?) ∧
      st'.taskList[i]? = some
        { title := st.editTitleInput, summary := st.editSummaryInput,
          state := st.editStateInput, deadline := st.editDeadlineInput } := by
  have hold : st.taskList[i]? = some st.taskList[i] := List.getElem?_eq_getElem hi
  refine ⟨{ persistTasks (st.taskList.set i
      { title := st.editTitleInput, summary := st.editSummaryInput,
        state := st.editStateInput, deadline := st.editDeadlineInput }) st with
      taskList := st.taskList.set i
        { title := st.editTitleInput, summary := st.editSummaryInput,
          state := st.editStateInput, deadline := st.editDeadlineInput },
      isEditModalVisible := false }, ?_, ?_, ?_, ?_⟩
  · unfold confirmEdits
    rw [hc]
    simp only [hold]
  · simp [persistTasks]
  · intro j hj
    simp only [persistTasks]
    exact List.getElem?_set_ne (Ne.symm hj)
  · simp only [persistTasks]
    exact List.getElem?_set_self hi

/-- Witness of C5: editing index `1` of a three-task list. -/
theorem confirmEdits_changes_only_index_witness :
    ∃ st', confirmEdits { initialState none with
        taskList := [⟨"A", "a", "Done", ""⟩, ⟨"B", "b", "Not done", ""⟩,
          ⟨"C", "c", "Done", ""⟩],
        currentEditIndex := some 1, editTitleInput := "B2", editSummaryInput := "b2",
        editStateInput := "Done", editDeadlineInput := "2024-01-15" } = .ok st' ∧
      st'.taskList.length = 3 ∧
      (∀ j, j ≠ 1 → st'.taskList[j]? = ([⟨"A", "a", "Done", ""⟩,
        ⟨"B", "b", "Not done", ""⟩, ⟨"C", "c", "Done", ""⟩] : List TaskRecord)[j]?) ∧
      st'.taskList[1]? = some
        { title := "B2", summary := "b2", state := "Done", deadline := "2024-01-15" } :=
  confirmEdits_changes_only_index { initialState none with
      taskList := [⟨"A", "a", "Done", ""⟩, ⟨"B", "b", "Not done", ""⟩,
        ⟨"C", "c", "Done", ""⟩],
      currentEditIndex := some 1, editTitleInput := "B2", editSummaryInput := "b2",
      editStateInput := "Done", editDeadlineInput := "2024-01-15" } 1 (by decide) rfl

/-- C6: for a valid index `i`, `removeTask i` leaves a list one shorter, equal to the
prior list before position `i` and to the prior list shifted down by one from position
`i` on. -/
theorem removeTask_removes_exactly_index (st : AppState) (i : Nat)
    (hi : i < st.taskList.length) :
    (removeTask i st).taskList.length + 1 = st.taskList.length ∧
    (∀ j, j < i → (removeTask i st).taskList[j]? = st.taskList[j]?) ∧
    (∀ j, i ≤ j → (removeTask i st).taskList[j]? = st.taskList[j + 1]?) := by
  rw [removeTask_taskList]
  refine ⟨?_, ?_, ?_⟩
  · rw [List.length_eraseIdx, if_pos hi]
    omega
  · intro j hj
    exact List.getElem?_eraseIdx_of_lt _ _ _ hj
  · intro j hj
    exact List.getElem?_eraseIdx_of_ge _ _ _ hj

/-- Witness of C6: removing index `1` of `[A, B, C]` leaves `[A, C]`. -/
theorem removeTask_removes_exactly_index_witness :
    (removeTask 1 { initialState none with
        taskList := [⟨"A", "", "Done", ""⟩, ⟨"B", "", "Done", ""⟩,
          ⟨"C", "", "Done", ""⟩] }).taskList.length + 1 = 3 ∧
    (removeTask 1 { initialState none with
        taskList := [⟨"A", "", "Done", ""⟩, ⟨"B", "", "Done", ""⟩,
          ⟨"C", "", "Done", ""⟩] }).taskList =
      [⟨"A", "", "Done", ""⟩, ⟨"C", "", "Done", ""⟩] :=
  ⟨(removeTask_removes_exactly_index { initialState none with
      taskList := [⟨"A", "", "Done", ""⟩, ⟨"B", "", "Done", ""⟩,
        ⟨"C", "", "Done", ""⟩] } 1 (by decide)).1, by decide⟩

/-- C9 at concrete states: `addNewTask` with an empty `titleInput` appends a task whose
title is empty, and `confirmEdits` with an empty `editTitleInput` stores an empty title,
although every prior task had a title. -/
theorem empty_title_is_stored :
    (addNewTask (initialState none)).taskList = [⟨"", "", "Not done", ""⟩] ∧
    (addNewTask { initialState none with
        taskList := [⟨"A", "", "Done", ""⟩] }).taskList =
      [⟨"A", "", "Done", ""⟩, ⟨"", "", "Not done", ""⟩] ∧
    (confirmEdits { initialState none with
        taskList := [⟨"A", "", "Done", ""⟩], currentEditIndex := some 0,
        editTitleInput := "", editStateInput := "Done" }).toOption.map
          (fun s => s.taskList) = some [⟨"", "", "Done", ""⟩] := by
  refine ⟨by decide, by decide, by decide⟩

end HandlerClaims

/-! ## Claims on persistence -/

section PersistenceClaims

/-- C7: for every sequence of task records, `persistTasks` followed by
`retrieveTasksFromStorage` returns normally and sets the in-memory list to that same
sequence, the empty sequence included. -/
theorem persist_then_retrieve (tasks : List TaskRecord) (st : AppState) :
    retrieveTasksFromStorage (persistTasks tasks st) =
      .ok { persistTasks tasks st with taskList := tasks } := by
  have hne : jsonStringify tasks ≠ "" := by
    intro h
    have := congrArg String.data h
    simp [jsonStringify] at this
  unfold retrieveTasksFromStorage
  simp only [persistTasks, truthy, hne, ne_eq, not_false_eq_true, decide_True, if_true,
    jsonParse_jsonStringify, Json.asTasks, asTaskList_map_taskJson]

/-- C8 as stated fails: over the stored string `not json` the call ends in the
`SyntaxError` thrown by `JSON.parse`. -/
theorem retrieve_malformed_counterexample :
    retrieveTasksFromStorage (initialState (some "not json")) = .error .syntaxError := by
  rfl

/-- C8 (amended): when the key is absent or holds the empty string,
`retrieveTasksFromStorage` returns normally and leaves the state, hence the in-memory list
(empty at startup), as it was; when `JSON.parse` rejects the stored string the call ends
in that `SyntaxError`. -/
theorem retrieve_absent_or_malformed (st : AppState) :
    ((st.storage = none ∨ st.storage = some "") → retrieveTasksFromStorage st = .ok st) ∧
    (∀ s : String, st.storage = some s → s ≠ "" → jsonParse s = .syntaxError →
      retrieveTasksFromStorage st = .error .syntaxError) := by
  constructor
  · rintro (h | h) <;> simp [retrieveTasksFromStorage, h, truthy]
  · intro s hs hne hp
    simp [retrieveTasksFromStorage, hs, truthy, hne, hp]

/-- Witness of the amended C8: the absent key at startup, and the stored string
`not json`. -/
theorem retrieve_absent_or_malformed_witness :
    retrieveTasksFromStorage (initialState none) = .ok (initialState none) ∧
    (initialState none).taskList = [] ∧
    retrieveTasksFromStorage (initialState (some "not json")) = .error .syntaxError :=
  ⟨(retrieve_absent_or_malformed (initialState none)).1 (Or.inl rfl), rfl,
    (retrieve_absent_or_malformed (initialState (some "not json"))).2 "not json" rfl
      (by decide) rfl⟩

end PersistenceClaims

end TaskApp
